import Mathlib

/-!
Verification of the grid-iteration core of the gismo excerpt
(src/src/gsTensor/gsGridIterator.h).

We give a shallow embedding of the three iterator flavours:

* the integer lattice iterator gsGridIterator with modes
  0 (CUBE), 1 (BDR, boundary only) and 2 (VERTEX, corners only);
* the uniform sample iterator (floating point modelled by the rationals);
* the coordinate-wise iterator (CWISE).

Points are lists of integers (axis 0 first, i.e. the head of the list is
the fastest-varying coordinate in the lexicographic traversal).  The
dynamic-dimension instantiation (template parameter d = -1) is modelled;
the loop bound (d==-1 ? m_dim : d) is then m_dim, which for a live
iterator equals the number of rows of the bounds.
-/

namespace GsGrid

/-- Integer points, one coordinate per axis (axis 0 = list head). -/
abbrev Pt := List Int

/-- Componentwise comparison (m_low.array() <= m_upp.array()).all(),
used by reset to decide whether the box is non-empty. -/
def allLe (a b : Pt) : Bool :=
  (a.zip b).all fun p => decide (p.1 ≤ p.2)

/-- The state of gsGridIterator of Z with mode, d, true:
lower and upper iteration limits, current point, and the active
dimension m_dim (zero exactly when the iteration is exhausted). -/
structure GridSt where
  low : Pt
  upp : Pt
  cur : Pt
  dim : Nat
  deriving Repr, DecidableEq

/-- reset(a, b, open): stores m_low = m_cur = a, m_upp = (open ? b-1 : b)
and m_dim = rows if the box is non-empty, else 0. -/
def resetSt (a b : Pt) (opn : Bool) : GridSt :=
  let u := if opn then b.map (fun x => x - 1) else b
  { low := a, upp := u, cur := a,
    dim := if allLe a u then a.length else 0 }

/-- The parameterless reset(): reset(m_low, m_upp, false). -/
def resetSt0 (s : GridSt) : GridSt := resetSt s.low s.upp false

/-- operator bool(): 0 != m_dim. -/
def stBool (s : GridSt) : Bool := s.dim != 0

/-- Mode-0 increment (case 0 of operator++): scan axes from axis 0; the
first axis whose coordinate differs from m_upp is incremented by one and
the scan stops; axes scanned over (equal to m_upp) are reset to m_low.
Returns none when every axis sits at m_upp (the iteration is done). -/
def cubeNext : Pt → Pt → Pt → Option Pt
  | l :: ls, u :: us, c :: cs =>
    if c ≠ u then some ((c + 1) :: cs)
    else (cubeNext ls us cs).map (fun t => l :: t)
  | _, _, _ => none

/-- Mode-2 increment (case 2 of operator++): as mode 0, but the first
axis not at m_upp jumps directly to m_upp. -/
def vertexNext : Pt → Pt → Pt → Option Pt
  | l :: ls, u :: us, c :: cs =>
    if c ≠ u then some (u :: cs)
    else (vertexNext ls us cs).map (fun t => l :: t)
  | _, _, _ => none

/-- The counting loop inside the mode-1 increment: the number of axes j
(in the given suffix, i.e. strictly above the scan position) whose
coordinate equals m_low[j] or m_upp[j]. -/
def atBoundCount : Pt → Pt → Pt → Nat
  | l :: ls, u :: us, c :: cs =>
    (if c = l ∨ c = u then 1 else 0) + atBoundCount ls us cs
  | _, _, _ => 0

/-- Mode-1 increment (case 1 of operator++), scanning from axis i with
the given m_dim.  At the first axis whose coordinate differs from m_upp:
if it sits at m_low and (i+1 != m_dim or m_dim == 1), then with
c = i+1 + (number of axes above at a bound), jump to m_upp when c = 1,
otherwise increment by one; in every other case increment by one.  Axes
scanned over are reset to m_low (the k-loop of the source). -/
def bdrNextAux (dim : Nat) : Nat → Pt → Pt → Pt → Option Pt
  | i, l :: ls, u :: us, c :: cs =>
    if c ≠ u then
      some ((if c = l ∧ (i + 1 ≠ dim ∨ dim = 1) then
               (if i + 1 + atBoundCount ls us cs = 1 then u else c + 1)
             else c + 1) :: cs)
    else (bdrNextAux dim (i + 1) ls us cs).map (fun t => l :: t)
  | _, _, _, _ => none

/-- The mode dispatch of operator++ on the current point, given the
bounds and m_dim (the latter only feeds the mode-1 condition). -/
def nextDisp (mode dim : Nat) (low upp c : Pt) : Option Pt :=
  match mode with
  | 0 => cubeNext low upp c
  | 1 => bdrNextAux dim 0 low upp c
  | 2 => vertexNext low upp c
  | _ => none

/-- One increment of the iterator state (operator++): mode 0, 1 or 2
advances m_cur; when the scan falls off the end (or the mode is not
recognised) m_dim is set to 0. -/
def stepSt (mode : Nat) (s : GridSt) : GridSt :=
  match nextDisp mode s.dim s.low s.upp s.cur with
  | some c => { s with cur := c }
  | none => { s with dim := 0 }

/-- isFloor(i): m_cur[i] == m_low[i]. -/
def isFloorSt (s : GridSt) (i : Nat) : Bool :=
  s.cur.getD i 0 == s.low.getD i 0

/-- isCeil(i): mode ? m_cur[i] == m_upp[i] : m_cur[i] + 1 == m_upp[i]. -/
def isCeilSt (mode : Nat) (s : GridSt) (i : Nat) : Bool :=
  if mode ≠ 0 then s.cur.getD i 0 == s.upp.getD i 0
  else s.cur.getD i 0 + 1 == s.upp.getD i 0

/-- isBoundary(): some coordinate equals its lower or upper limit. -/
def isBoundarySt (s : GridSt) : Bool :=
  ((s.cur.zip s.low).any fun p => p.1 == p.2) ||
  ((s.cur.zip s.upp).any fun p => p.1 == p.2)

/-- The per-axis extents (m_upp - m_low).array() + 1. -/
def extents (low upp : Pt) : List Int :=
  List.zipWith (fun l u => u - l + 1) low upp

/-- numPoints() for mode 0: prod((m_upp-m_low)+1). -/
def numPointsCube (low upp : Pt) : Int := (extents low upp).prod

/-- numPoints() for mode 1:
prod((m_upp-m_low)+1) - prod((m_upp-m_low)-1). -/
def numPointsBdr (low upp : Pt) : Int :=
  (extents low upp).prod -
    (List.zipWith (fun l u => u - l - 1) low upp).prod

/-- numPoints() for mode 2: 1 shifted left by the number of rows. -/
def numPointsVertex (low : Pt) : Int := 2 ^ low.length

/-- numPointsCwise(): (m_upp - m_low).array() + 1. -/
def numPointsCwiseSt (s : GridSt) : List Int := extents s.low s.upp

/-- strides(): res[0] = 1 and res[i] = res[i-1] * (m_upp[i-1]-m_low[i-1]+1);
equivalently each entry is the previous one scaled by the previous extent,
which is the cons-recursion below. -/
def stridesList : Pt → Pt → List Int
  | l :: ls, u :: us => 1 :: (stridesList ls us).map (fun x => x * (u - l + 1))
  | _, _ => []

/-- Dot product of two integer vectors. -/
def dotL (a b : List Int) : Int := (List.zipWith (· * ·) a b).sum

/-- The flat index of the spec: dot(p - low, strides()). -/
def flatIdx (low upp p : Pt) : Int :=
  dotL (List.zipWith (fun x l => x - l) p low) (stridesList low upp)

/-- Fuel bound used to run a traversal to exhaustion: the full box size. -/
def fuelOf (s : GridSt) : Nat := (numPointsCube s.low s.upp).toNat

/-- Collect the points of a traversal: while the iterator converts to
true, record m_cur and advance (fuelled; the fuel is always chosen at
least as large as the number of emitted points). -/
def runSt (mode : Nat) : Nat → GridSt → List Pt
  | 0, _ => []
  | n + 1, s => if s.dim ≠ 0 then s.cur :: runSt mode n (stepSt mode s) else []

/-- The full traversal of a freshly constructed iterator. -/
def emitted (mode : Nat) (a b : Pt) (opn : Bool) : List Pt :=
  let s := resetSt a b opn
  runSt mode (fuelOf s) s

/-! ### Reference enumerations (used to state the specification claims) -/

/-- The integer range from l to u inclusive, in increasing order. -/
def intRange (l u : Int) : List Int :=
  (List.range (u - l + 1).toNat).map (fun (r : Nat) => l + (r : Int))

/-- All lattice points of the closed box, in lexicographic order with
axis 0 (the list head) varying fastest. -/
def fullEnum : Pt → Pt → List Pt
  | [], [] => [([] : Pt)]
  | l :: ls, u :: us =>
    (fullEnum ls us).flatMap (fun t => (intRange l u).map (fun x => x :: t))
  | _, _ => []

/-- Boundary test of a point against a box, mirroring isBoundary(). -/
def bdrB (low upp p : Pt) : Bool :=
  ((p.zip low).any fun q => q.1 == q.2) || ((p.zip upp).any fun q => q.1 == q.2)

/-- The number of lattice points of the closed box, as a natural number. -/
def nCube : Pt → Pt → Nat
  | l :: ls, u :: us => (u - l + 1).toNat * nCube ls us
  | _, _ => 1

/-- The k-th point of the closed box in lexicographic order
(mixed-radix decomposition of k, axis 0 fastest). -/
def unrank : Pt → Pt → Nat → Pt
  | l :: ls, u :: us, k =>
    (l + ((k % (u - l + 1).toNat : Nat) : Int)) :: unrank ls us (k / (u - l + 1).toNat)
  | _, _, _ => []

/-- The k-th vertex of the box: bit i of k selects low or upp on axis i. -/
def unrankV : Pt → Pt → Nat → Pt
  | l :: ls, u :: us, k =>
    (if k % 2 = 1 then u else l) :: unrankV ls us (k / 2)
  | _, _, _ => []

/-- Pure fuelled iteration of a partial successor function, collecting
the visited points; it stops when the successor is exhausted. -/
def iterO (f : Pt → Option Pt) : Nat → Pt → List Pt
  | 0, _ => []
  | n + 1, c => c :: (match f c with | none => [] | some c2 => iterO f n c2)

/-- The mode-dispatched successor on current points, with the bounds
fixed; for mode 1 the m_dim parameter of a live iterator equals the
number of rows. -/
def nextFn (mode : Nat) (low upp : Pt) (c : Pt) : Option Pt :=
  nextDisp mode low.length low upp c

/-- The boundary segment contributed by one tail value t: if the tail is
strictly off every bound (and the head axis is non-degenerate) only the
two extreme head values appear, otherwise every head value appears. -/
def segPts (l u : Int) (ls us : List Int) (t : Pt) : List Pt :=
  if atBoundCount ls us t = 0 ∧ l ≠ u then [l :: t, u :: t]
  else (intRange l u).map (fun x => x :: t)

/-! ### The uniform sample iterator (gsGridIterator of T, mode, d, false)

The numeric scalar type T is modelled by the rationals, so that the
arithmetic of the source is represented exactly. -/

/-- State of the uniform sample iterator: bounds a, b, the per-axis
step, the wrapped integer lattice iterator, and the current point. -/
structure USt where
  ulow : List ℚ
  uupp : List ℚ
  ustep : List ℚ
  uiter : GridSt
  ucur : List ℚ
  deriving Repr, DecidableEq

/-- reset(a, b): m_cur = m_low = a, m_upp = b, and
m_step = (b-a) / max(numPointsCwise() - 1, 1) componentwise; finally
the wrapped iterator is reset. -/
def uReset (s : USt) (a b : List ℚ) : USt :=
  { ulow := a, uupp := b,
    ustep := List.zipWith
      (fun p n => (p.2 - p.1) / ((max (n - 1) 1 : Int) : ℚ))
      (a.zip b) (numPointsCwiseSt s.uiter),
    uiter := resetSt0 s.uiter,
    ucur := a }

/-- The constructor from (a, b, np): the member initialiser m_iter(np, 1)
builds the lattice iterator over the open box [0, np), then reset(a, b)
is called. -/
def uInit (a b : List ℚ) (np : List Int) : USt :=
  uReset
    { ulow := [], uupp := [], ustep := [],
      uiter := resetSt (List.replicate np.length 0) np true, ucur := [] }
    a b

/-- The parameterless reset(): m_cur = m_low and m_iter.reset(). -/
def uReset0 (s : USt) : USt :=
  { s with ucur := s.ulow, uiter := resetSt0 s.uiter }

/-- operator++: advance the wrapped lattice iterator; while it is still
live, recompute every coordinate: a[i] at the floor, b[i] at the ceiling
(as reported by the mode-0 isCeil), otherwise a[i] + index * step[i]. -/
def uStep (s : USt) : USt :=
  let it2 := stepSt 0 s.uiter
  if it2.dim ≠ 0 then
    { s with
      uiter := it2,
      ucur := (List.range s.ulow.length).map (fun i =>
        if isFloorSt it2 i then s.ulow.getD i 0
        else if isCeilSt 0 it2 i then s.uupp.getD i 0
        else s.ulow.getD i 0 + ((it2.cur.getD i 0 : Int) : ℚ) * s.ustep.getD i 0) }
  else { s with uiter := it2 }

/-- Collect the traversal of the uniform sample iterator. -/
def uRun : Nat → USt → List (List ℚ)
  | 0, _ => []
  | n + 1, s => if stBool s.uiter then s.ucur :: uRun n (uStep s) else []

/-- The full traversal of a freshly constructed uniform sample iterator. -/
def uEmit (a b : List ℚ) (np : List Int) : List (List ℚ) :=
  uRun (fuelOf (uInit a b np).uiter) (uInit a b np)

/-! ### The coordinate-wise iterator (gsGridIterator of T, 3, d, false) -/

/-- A minimal model of a stored coordinate matrix: its shape and its
linearly indexed entries (entry k of the storage is data.getD k 0,
the at(k) accessor of the source). -/
structure QMat where
  rows : Nat
  cols : Nat
  data : List ℚ
  deriving Repr, DecidableEq

/-- State of the coordinate-wise iterator: the referenced coordinate
table, the wrapped full-cube lattice iterator and the current point. -/
structure CSt where
  cwise : List QMat
  citer : GridSt
  ccur : List ℚ
  deriving Repr, DecidableEq

/-- The row count of m_cur, fixed by the constructor's resize: if the
first coordinate matrix has a single row, m_cur is resized to
cwise.size()-by-1 (rows = cwise.size()), otherwise to 1-by-cwise.size()
(rows = 1).  The shape is never changed afterwards, and the update()
loop runs over exactly these rows. -/
def curRowsOf (cw : List QMat) : Nat :=
  if (cw.headD ⟨0, 0, []⟩).rows = 1 then cw.length else 1

/-- update(): for i = 0 .. m_cur.rows()-1 set
m_cur.at(i) = m_cwise[i].at(m_iter->at(i)); the linear entries of m_cur
at positions from m_cur.rows() on are not touched and keep their
previous contents (the argument old). -/
def cUpdate (cw : List QMat) (it : GridSt) (old : List ℚ) : List ℚ :=
  (List.range old.length).map (fun i =>
    if i < curRowsOf cw then
      ((cw.getD i ⟨0, 0, []⟩).data).getD (it.cur.getD i 0).toNat 0
    else old.getD i 0)

/-- The constructor: npts[i] = cwise[i].rows() - 1; the wrapped lattice
iterator is built over the closed box [0, npts] (the integer_iterator
constructor is called with open = 0); m_cur is resized to
cwise.size()-by-1 or 1-by-cwise.size() according to the first matrix's
row count — the resize leaves the cwise.size() linear entries with
unspecified contents, modelled by the parameter junk — and then
update() is called. -/
def cInit (cw : List QMat) (junk : List ℚ) : CSt :=
  let it := resetSt (List.replicate cw.length 0)
    (cw.map (fun m => (m.rows : Int) - 1)) false
  { cwise := cw, citer := it,
    ccur := cUpdate cw it ((List.range cw.length).map (fun i => junk.getD i 0)) }

/-- The parameterless reset(): m_iter.reset() then update(). -/
def cReset0 (s : CSt) : CSt :=
  let it2 := resetSt0 s.citer
  { s with citer := it2, ccur := cUpdate s.cwise it2 s.ccur }

/-- operator++: advance the wrapped lattice iterator and, while it is
still live, recompute the current point by update(). -/
def cStep (s : CSt) : CSt :=
  let it2 := stepSt 0 s.citer
  if it2.dim ≠ 0 then { s with citer := it2, ccur := cUpdate s.cwise it2 s.ccur }
  else { s with citer := it2 }

/-- Collect the traversal of the coordinate-wise iterator. -/
def cRun : Nat → CSt → List (List ℚ)
  | 0, _ => []
  | n + 1, s => if stBool s.citer then s.ccur :: cRun n (cStep s) else []

/-- The full traversal of a freshly constructed coordinate-wise
iterator, for a given content of the uninitialised resize. -/
def cEmit (cw : List QMat) (junk : List ℚ) : List (List ℚ) :=
  cRun (fuelOf (cInit cw junk).citer) (cInit cw junk)

/-! ### Generic lemmas about the fuelled iteration -/

theorem runSt_dim0 (mode n : Nat) (s : GridSt) (h : s.dim = 0) :
    runSt mode n s = [] := by
  cases n with
  | zero => rfl
  | succ n => simp [runSt, h]

theorem stepSt_low (mode : Nat) (s : GridSt) : (stepSt mode s).low = s.low := by
  unfold stepSt
  cases nextDisp mode s.dim s.low s.upp s.cur <;> rfl

theorem stepSt_upp (mode : Nat) (s : GridSt) : (stepSt mode s).upp = s.upp := by
  unfold stepSt
  cases nextDisp mode s.dim s.low s.upp s.cur <;> rfl

/-- Bridge: while the iterator is live (m_dim equal to the number of
rows, nonzero), collecting the traversal is the pure iteration of the
successor function from the current point. -/
theorem runSt_eq_iterO (mode : Nat) :
    ∀ (n : Nat) (s : GridSt), s.dim = s.low.length → s.low.length ≠ 0 →
      runSt mode n s = iterO (nextFn mode s.low s.upp) n s.cur := by
  intro n
  induction n with
  | zero => intro s _ _; rfl
  | succ n ih =>
    intro s hdim hne
    have hd : s.dim ≠ 0 := by rw [hdim]; exact hne
    rw [runSt, if_pos hd, iterO]
    have hsel : nextDisp mode s.dim s.low s.upp s.cur = nextFn mode s.low s.upp s.cur := by
      rw [nextFn, hdim]
    cases hn : nextFn mode s.low s.upp s.cur with
    | none =>
      have hstep : stepSt mode s = { s with dim := 0 } := by
        unfold stepSt; rw [hsel, hn]
      rw [hstep, runSt_dim0 mode n _ rfl]
    | some c2 =>
      have hstep : stepSt mode s = { s with cur := c2 } := by
        unfold stepSt; rw [hsel, hn]
      rw [hstep]
      exact congrArg (List.cons s.cur) (ih { s with cur := c2 } hdim hne)

/-- Iterating a successor function that follows an indexed enumeration g
on 0, ..., N-1 yields the corresponding segment of the enumeration; any
surplus fuel is unused because the successor is exhausted at the end. -/
theorem iterO_ofStep (f : Pt → Option Pt) (g : Nat → Pt) (N : Nat)
    (hstep : ∀ k, k < N → f (g k) = if k + 1 < N then some (g (k + 1)) else none) :
    ∀ (r j extra : Nat), j + r = N → 0 < r →
      iterO f (r + extra) (g j) = (List.range' j r).map g := by
  intro r
  induction r with
  | zero => intro j extra _ h0; exact absurd h0 (by simp)
  | succ r ih =>
    intro j extra hjr _
    have hjN : j < N := by omega
    rw [List.range'_succ, Nat.succ_add, iterO, hstep j hjN]
    by_cases hr : r = 0
    · subst hr
      have : ¬ (j + 1 < N) := by omega
      simp [this]
    · have h1 : j + 1 < N := by omega
      rw [if_pos h1]
      simp only [List.map_cons]
      have := ih (j + 1) extra (by omega) (Nat.pos_of_ne_zero hr)
      rw [this]

/-! ### Mode 0 (full cube): the increment follows the mixed-radix unrank -/

theorem nCube_pos {low upp : Pt} (h : List.Forall₂ (· ≤ ·) low upp) :
    0 < nCube low upp := by
  induction h with
  | nil => simp [nCube]
  | @cons l u ls us hlu htail ih =>
    have he : 0 < (u - l + 1).toNat := by omega
    simpa [nCube] using Nat.mul_pos he ih

theorem numPointsCube_eq_nCube {low upp : Pt} (h : List.Forall₂ (· ≤ ·) low upp) :
    numPointsCube low upp = (nCube low upp : Int) := by
  induction h with
  | nil => simp [numPointsCube, extents, nCube]
  | @cons l u ls us hlu htail ih =>
    have he : (((u - l + 1).toNat : Nat) : Int) = u - l + 1 := by omega
    simp only [numPointsCube, extents, List.zipWith_cons_cons, List.prod_cons, nCube] at *
    push_cast
    rw [he, ih]

theorem allLe_of_le {a b : Pt} (h : List.Forall₂ (· ≤ ·) a b) : allLe a b = true := by
  induction h with
  | nil => rfl
  | @cons x y xs ys hxy htail ih =>
    simp only [allLe, List.zip_cons_cons, List.all_cons, Bool.and_eq_true] at *
    exact ⟨by simpa using hxy, ih⟩

theorem unrank_zero {low upp : Pt} (h : List.Forall₂ (· ≤ ·) low upp) :
    unrank low upp 0 = low := by
  induction h with
  | nil => rfl
  | @cons l u ls us hlu htail ih => simp [unrank, ih]

theorem cubeNext_unrank {low upp : Pt} (h : List.Forall₂ (· ≤ ·) low upp) :
    ∀ k, k < nCube low upp →
      cubeNext low upp (unrank low upp k) =
        if k + 1 < nCube low upp then some (unrank low upp (k + 1)) else none := by
  induction h with
  | nil =>
    intro k hk
    have hk0 : k = 0 := by simpa [nCube] using hk
    subst hk0
    simp [nCube, unrank, cubeNext]
  | @cons l u ls us hlu htail ih =>
    intro k hk
    have hepos : 0 < (u - l + 1).toNat := by omega
    set e := (u - l + 1).toNat with he
    have hecast : ((e : Nat) : Int) = u - l + 1 := by omega
    have hkeM : k < e * nCube ls us := by simpa [nCube, ← he] using hk
    have hMpos : 0 < nCube ls us := nCube_pos htail
    have hmod : k % e < e := Nat.mod_lt _ hepos
    have h0 : e * (k / e) + k % e = k := Nat.div_add_mod k e
    by_cases hcu : k % e = e - 1
    · -- the head sits at its upper limit: carry into the tail
      have hhead : l + ((k % e : Nat) : Int) = u := by omega
      have hk1 : k + 1 = e * (k / e + 1) := by
        rw [Nat.mul_add, Nat.mul_one]; omega
      have hm1 : (k + 1) % e = 0 := by rw [hk1]; exact Nat.mul_mod_right e _
      have hd1 : (k + 1) / e = k / e + 1 := by
        rw [hk1]; exact Nat.mul_div_cancel_left _ hepos
      have hdivlt : k / e < nCube ls us := by
        rw [Nat.div_lt_iff_lt_mul hepos]; rw [Nat.mul_comm]; exact hkeM
      simp only [unrank, ← he, cubeNext, hhead]
      rw [if_neg (by simp), ih (k / e) hdivlt]
      by_cases htl : k / e + 1 < nCube ls us
      · have : k + 1 < e * nCube ls us := by
          rw [hk1]; exact (mul_lt_mul_left hepos).mpr htl
        rw [if_pos htl, if_pos (by simpa [nCube, ← he] using this)]
        simp only [Option.map_some, unrank, ← he, hm1, hd1]
        norm_num
      · have : ¬ (k + 1 < e * nCube ls us) := by
          rw [hk1]
          exact not_lt.mpr (Nat.mul_le_mul_left e (by omega))
        rw [if_neg htl, if_neg (by simpa [nCube, ← he] using this)]
        rfl
    · -- the head is free to advance by one
      have hhead : l + ((k % e : Nat) : Int) ≠ u := by omega
      have hlt : k % e + 1 < e := by omega
      have h2 : k + 1 = k % e + 1 + e * (k / e) := by omega
      have hmod1 : (k + 1) % e = k % e + 1 := by
        rw [h2, Nat.add_mul_mod_self_left, Nat.mod_eq_of_lt hlt]
      have hdiv1 : (k + 1) / e = k / e := by
        rw [h2, Nat.add_mul_div_left _ _ hepos, Nat.div_eq_of_lt hlt, Nat.zero_add]
      have hk1 : k + 1 < e * nCube ls us := by
        rcases Nat.lt_or_ge (k + 1) (e * nCube ls us) with hlt' | hge
        · exact hlt'
        · exfalso
          have heq : k + 1 = e * nCube ls us := by omega
          have : (k + 1) % e = 0 := by rw [heq]; exact Nat.mul_mod_right _ _
          omega
      simp only [unrank, ← he, cubeNext]
      rw [if_pos hhead, if_pos (by simpa [nCube, ← he] using hk1)]
      simp only [unrank, ← he, hmod1, hdiv1]
      congr 2
      push_cast
      ring

/-- Splitting a range of length e * M into M blocks of length e. -/
theorem range_mul_flatMap (e M : Nat) :
    List.range (e * M) =
      (List.range M).flatMap (fun m => (List.range e).map (fun r => e * m + r)) := by
  induction M with
  | zero => simp
  | succ M ih =>
    rw [Nat.mul_succ, List.range_add, List.range_succ, List.flatMap_append, ← ih]
    simp [Nat.mul_comm]

theorem fullEnum_eq_map_unrank {low upp : Pt} (h : List.Forall₂ (· ≤ ·) low upp) :
    fullEnum low upp = (List.range (nCube low upp)).map (unrank low upp) := by
  induction h with
  | nil => simp [fullEnum, nCube, unrank]
  | @cons l u ls us hlu htail ih =>
    have hepos : 0 < (u - l + 1).toNat := by omega
    set e := (u - l + 1).toNat with he
    show (fullEnum ls us).flatMap (fun t => (intRange l u).map (fun x => x :: t)) = _
    have hN : nCube (l :: ls) (u :: us) = e * nCube ls us := by simp [nCube, ← he]
    rw [hN, range_mul_flatMap, List.map_flatMap, ih, List.flatMap_map]
    apply List.flatMap_congr
    intro m _
    rw [intRange, ← he, List.map_map, List.map_map]
    apply List.map_congr_left
    intro r hr
    have hre : r < e := List.mem_range.mp hr
    simp only [Function.comp]
    rw [unrank, ← he]
    have hm : (e * m + r) % e = r := by
      rw [Nat.mul_add_mod, Nat.mod_eq_of_lt hre]
    have hd : (e * m + r) / e = m := by
      rw [Nat.mul_add_div hepos, Nat.div_eq_of_lt hre, Nat.add_zero]
    rw [hm, hd]

theorem fullEnum_length {low upp : Pt} (h : List.Forall₂ (· ≤ ·) low upp) :
    (fullEnum low upp).length = nCube low upp := by
  rw [fullEnum_eq_map_unrank h]; simp

theorem resetSt_low (a b : Pt) (opn : Bool) : (resetSt a b opn).low = a := rfl

theorem resetSt_cur (a b : Pt) (opn : Bool) : (resetSt a b opn).cur = a := rfl

theorem resetSt_upp_false (a b : Pt) : (resetSt a b false).upp = b := rfl

theorem resetSt_dim_of_le {low upp : Pt} (h : List.Forall₂ (· ≤ ·) low upp) :
    (resetSt low upp false).dim = low.length := by
  have hal : allLe low upp = true := allLe_of_le h
  simp [resetSt, hal]

theorem nextFn_zero (low upp : Pt) : nextFn 0 low upp = cubeNext low upp := rfl

theorem nextFn_two (low upp : Pt) : nextFn 2 low upp = vertexNext low upp := rfl

theorem fuelOf_resetSt_false {low upp : Pt} (h : List.Forall₂ (· ≤ ·) low upp) :
    fuelOf (resetSt low upp false) = nCube low upp := by
  show (numPointsCube low upp).toNat = _
  rw [numPointsCube_eq_nCube h, Int.toNat_natCast]

/-- The full mode-0 traversal enumerates every lattice point of the box
in lexicographic order (axis 0 fastest). -/
theorem emitted_cube_eq_fullEnum {low upp : Pt}
    (h : List.Forall₂ (· ≤ ·) low upp) (hne : low ≠ []) :
    emitted 0 low upp false = fullEnum low upp := by
  have hlen0 : low.length ≠ 0 := by
    have := List.length_pos.mpr hne; omega
  show runSt 0 (fuelOf (resetSt low upp false)) (resetSt low upp false) = _
  rw [runSt_eq_iterO 0 _ _ (by rw [resetSt_dim_of_le h]; rfl) hlen0]
  rw [resetSt_low, resetSt_upp_false, resetSt_cur, nextFn_zero,
    fuelOf_resetSt_false h]
  rw [fullEnum_eq_map_unrank h, List.range_eq_range']
  have hmain := iterO_ofStep (cubeNext low upp) (unrank low upp) (nCube low upp)
    (cubeNext_unrank h) (nCube low upp) 0 0 (Nat.zero_add _) (nCube_pos h)
  rw [unrank_zero h] at hmain
  simpa using hmain

/-! ### Flat index and strides (mode 0) -/

theorem sum_map_mul_const (l : List Int) (c : Int) :
    (l.map (fun z => z * c)).sum = l.sum * c := by
  induction l with
  | nil => simp
  | cons x xs ih => simp [ih, add_mul]

theorem zipWith_mul_map_right (c : Int) :
    ∀ (xs ys : List Int),
      List.zipWith (· * ·) xs (ys.map (fun y => y * c)) =
        (List.zipWith (· * ·) xs ys).map (fun z => z * c) := by
  intro xs
  induction xs with
  | nil => intro ys; simp
  | cons x xs ih =>
    intro ys
    cases ys with
    | nil => simp
    | cons y ys => simp [List.zipWith_cons_cons, ih, mul_assoc]

theorem flatIdx_cons (l u x : Int) (ls us xs : List Int) :
    flatIdx (l :: ls) (u :: us) (x :: xs) =
      (x - l) + (u - l + 1) * flatIdx ls us xs := by
  show (List.zipWith (· * ·)
      ((x - l) :: List.zipWith (fun a b => a - b) xs ls)
      (1 :: (stridesList ls us).map (fun z => z * (u - l + 1)))).sum = _
  rw [List.zipWith_cons_cons, List.sum_cons, zipWith_mul_map_right, sum_map_mul_const]
  show (x - l) * 1 + dotL (List.zipWith (fun a b => a - b) xs ls) (stridesList ls us) * (u - l + 1) = _
  show _ = (x - l) + (u - l + 1) * dotL (List.zipWith (fun a b => a - b) xs ls) (stridesList ls us)
  ring

theorem flatIdx_unrank {low upp : Pt} (h : List.Forall₂ (· ≤ ·) low upp) :
    ∀ k, k < nCube low upp → flatIdx low upp (unrank low upp k) = (k : Int) := by
  induction h with
  | nil =>
    intro k hk
    have hk0 : k = 0 := by simpa [nCube] using hk
    subst hk0
    rfl
  | @cons l u ls us hlu htail ih =>
    intro k hk
    have hepos : 0 < (u - l + 1).toNat := by omega
    set e := (u - l + 1).toNat with he
    have hecast : ((e : Nat) : Int) = u - l + 1 := by omega
    have hkeM : k < e * nCube ls us := by simpa [nCube, ← he] using hk
    have hdivlt : k / e < nCube ls us := by
      rw [Nat.div_lt_iff_lt_mul hepos, Nat.mul_comm]; exact hkeM
    show flatIdx (l :: ls) (u :: us)
      ((l + ((k % e : Nat) : Int)) :: unrank ls us (k / e)) = (k : Int)
    rw [flatIdx_cons, ih (k / e) hdivlt, ← hecast]
    have hs : k % e + e * (k / e) = k := Nat.mod_add_div k e
    have hgoal : ((k % e : Nat) : Int) + (e : Int) * ((k / e : Nat) : Int) = (k : Int) := by
      exact_mod_cast hs
    linarith [hgoal]

theorem stridesList_getD_zero (l u : Int) (ls us : List Int) :
    (stridesList (l :: ls) (u :: us)).getD 0 0 = 1 := rfl

theorem getD_map_mul (c : Int) :
    ∀ (s : List Int) (j : Nat), j < s.length →
      ((s.map (fun z => z * c)).getD j 0) = s.getD j 0 * c := by
  intro s
  induction s with
  | nil => intro j hj; simp at hj
  | cons x xs ih =>
    intro j hj
    cases j with
    | zero => simp
    | succ j =>
      rw [List.map_cons, List.getD_cons_succ, List.getD_cons_succ]
      exact ih j (by simpa using hj)

theorem stridesList_length : ∀ (low upp : Pt),
    (stridesList low upp).length = min low.length upp.length := by
  intro low
  induction low with
  | nil => intro upp; cases upp <;> simp [stridesList]
  | cons l ls ih =>
    intro upp
    cases upp with
    | nil => simp [stridesList]
    | cons u us => simp [stridesList, ih, Nat.succ_min_succ]

theorem stridesList_succ : ∀ (low upp : Pt) (k : Nat),
    k + 1 < (stridesList low upp).length →
    (stridesList low upp).getD (k + 1) 0 =
      (stridesList low upp).getD k 0 * (upp.getD k 0 - low.getD k 0 + 1) := by
  intro low
  induction low with
  | nil => intro upp k hk; cases upp <;> simp [stridesList] at hk
  | cons l ls ih =>
    intro upp k hk
    cases upp with
    | nil => simp [stridesList] at hk
    | cons u us =>
      have hlen : k < (stridesList ls us).length := by
        simpa [stridesList] using hk
      cases k with
      | zero =>
        -- the second stride is the first extent
        rw [stridesList, List.getD_cons_succ, List.getD_cons_zero,
          getD_map_mul _ _ _ hlen]
        cases ls with
        | nil => simp [stridesList] at hlen
        | cons l2 ls2 =>
          cases us with
          | nil => simp [stridesList] at hlen
          | cons u2 us2 =>
            rw [stridesList_getD_zero]
            simp [List.getD_cons_zero]
      | succ k =>
        have hlen' : k + 1 < (stridesList ls us).length := hlen
        rw [stridesList, List.getD_cons_succ, List.getD_cons_succ,
          getD_map_mul _ _ _ hlen, getD_map_mul _ _ _ (by omega),
          ih us k hlen']
        rw [List.getD_cons_succ, List.getD_cons_succ]
        ring

/-! ### Mode 2 (vertices): the increment follows the binary unrank -/

theorem unrankV_zero {low upp : Pt} (h : List.Forall₂ (· ≤ ·) low upp) :
    unrankV low upp 0 = low := by
  induction h with
  | nil => rfl
  | @cons l u ls us hlu htail ih => simp [unrankV, ih]

theorem vertexNext_unrankV {low upp : Pt} (h : List.Forall₂ (· < ·) low upp) :
    ∀ k, k < 2 ^ low.length →
      vertexNext low upp (unrankV low upp k) =
        if k + 1 < 2 ^ low.length then some (unrankV low upp (k + 1)) else none := by
  induction h with
  | nil =>
    intro k hk
    have hk0 : k = 0 := by simpa using hk
    subst hk0
    simp [unrankV, vertexNext]
  | @cons l u ls us hlu htail ih =>
    intro k hk
    have hlen : 2 ^ ((l :: ls : Pt)).length = 2 * 2 ^ ls.length := by
      simp [List.length_cons, Nat.pow_succ, Nat.mul_comm]
    rw [hlen] at hk ⊢
    by_cases hpar : k % 2 = 1
    · -- head at its upper limit: carry into the tail
      have hdiv : k / 2 < 2 ^ ls.length := by omega
      have hm1 : (k + 1) % 2 = 0 := by omega
      have hd1 : (k + 1) / 2 = k / 2 + 1 := by omega
      show vertexNext (l :: ls) (u :: us)
        ((if k % 2 = 1 then u else l) :: unrankV ls us (k / 2)) = _
      rw [if_pos hpar]
      simp only [vertexNext]
      rw [if_neg (by simp), ih (k / 2) hdiv]
      by_cases htl : k / 2 + 1 < 2 ^ ls.length
      · rw [if_pos htl, if_pos (by omega)]
        show some (l :: unrankV ls us (k / 2 + 1)) =
          some ((if (k + 1) % 2 = 1 then u else l) :: unrankV ls us ((k + 1) / 2))
        rw [hd1, hm1]
        simp
      · rw [if_neg htl, if_neg (by omega)]
        rfl
    · -- head below its upper limit: jump the head to the upper limit
      have hm1 : (k + 1) % 2 = 1 := by omega
      have hd1 : (k + 1) / 2 = k / 2 := by omega
      show vertexNext (l :: ls) (u :: us)
        ((if k % 2 = 1 then u else l) :: unrankV ls us (k / 2)) = _
      rw [if_neg hpar]
      simp only [vertexNext]
      rw [if_pos (by omega), if_pos (by omega)]
      show some (u :: unrankV ls us (k / 2)) =
        some ((if (k + 1) % 2 = 1 then u else l) :: unrankV ls us ((k + 1) / 2))
      rw [hd1, hm1]
      simp

theorem two_pow_le_nCube {low upp : Pt} (h : List.Forall₂ (· < ·) low upp) :
    2 ^ low.length ≤ nCube low upp := by
  induction h with
  | nil => simp [nCube]
  | @cons l u ls us hlu htail ih =>
    have he : 2 ≤ (u - l + 1).toNat := by omega
    calc 2 ^ ((l :: ls : Pt)).length = 2 * 2 ^ ls.length := by
          simp [List.length_cons, Nat.pow_succ, Nat.mul_comm]
      _ ≤ (u - l + 1).toNat * nCube ls us := Nat.mul_le_mul he ih
      _ = nCube (l :: ls) (u :: us) := rfl

/-- The full mode-2 traversal enumerates the vertices of a box with
strictly separated bounds, indexed by the binary unrank. -/
theorem emitted_vertex_eq {low upp : Pt}
    (h : List.Forall₂ (· < ·) low upp) (hne : low ≠ []) :
    emitted 2 low upp false = (List.range (2 ^ low.length)).map (unrankV low upp) := by
  have hle : List.Forall₂ (· ≤ ·) low upp := h.imp (fun _ _ => le_of_lt)
  have hlen0 : low.length ≠ 0 := by
    have := List.length_pos.mpr hne; omega
  show runSt 2 (fuelOf (resetSt low upp false)) (resetSt low upp false) = _
  rw [runSt_eq_iterO 2 _ _ (by rw [resetSt_dim_of_le hle]; rfl) hlen0]
  rw [resetSt_low, resetSt_upp_false, resetSt_cur, nextFn_two,
    fuelOf_resetSt_false hle]
  rw [List.range_eq_range']
  have hfe : nCube low upp = 2 ^ low.length + (nCube low upp - 2 ^ low.length) :=
    (Nat.add_sub_cancel' (two_pow_le_nCube h)).symm
  have hmain := iterO_ofStep (vertexNext low upp) (unrankV low upp) (2 ^ low.length)
    (vertexNext_unrankV h) (2 ^ low.length) 0 (nCube low upp - 2 ^ low.length)
    (Nat.zero_add _) (Nat.pos_pow_of_pos _ (by omega))
  rw [unrankV_zero hle] at hmain
  rw [hfe]
  simpa using hmain

theorem unrankV_getD {low upp : Pt} (h : List.Forall₂ (· ≤ ·) low upp) :
    ∀ (k i : Nat), i < low.length →
      (unrankV low upp k).getD i 0 = low.getD i 0 ∨
      (unrankV low upp k).getD i 0 = upp.getD i 0 := by
  induction h with
  | nil => intro k i hi; simp at hi
  | @cons l u ls us hlu htail ih =>
    intro k i hi
    cases i with
    | zero =>
      show ((if k % 2 = 1 then u else l) :: unrankV ls us (k / 2)).getD 0 0 = _ ∨
        ((if k % 2 = 1 then u else l) :: unrankV ls us (k / 2)).getD 0 0 = _
      by_cases hp : k % 2 = 1 <;> simp [hp]
    | succ i =>
      have := ih (k / 2) i (by simpa using hi)
      simpa [unrankV, List.getD_cons_succ] using this

/-! ### Basic facts about integer ranges and the boundary test -/

theorem intRange_length (l u : Int) : (intRange l u).length = (u - l + 1).toNat := by
  simp [intRange]

theorem mem_intRange {l u x : Int} : x ∈ intRange l u ↔ l ≤ x ∧ x ≤ u := by
  simp only [intRange, List.mem_map, List.mem_range]
  constructor
  · rintro ⟨r, hr, rfl⟩
    omega
  · rintro ⟨h1, h2⟩
    exact ⟨(x - l).toNat, by omega, by omega⟩

theorem intRange_cons_of_le {c u : Int} (hcu : c ≤ u) :
    intRange c u = c :: intRange (c + 1) u := by
  rw [intRange, show (u - c + 1).toNat = (u - (c + 1) + 1).toNat + 1 by omega,
    List.range_succ_eq_map]
  rw [List.map_cons, List.map_map, intRange]
  congr 1
  · simp
  · apply List.map_congr_left
    intro r _
    simp only [Function.comp]
    omega

theorem intRange_concat_of_le {l u : Int} (hlu : l ≤ u) :
    intRange l u = intRange l (u - 1) ++ [u] := by
  rw [intRange, show (u - l + 1).toNat = (u - 1 - l + 1).toNat + 1 by omega,
    List.range_succ, List.map_append, intRange]
  congr 1
  simp only [List.map_cons, List.map_nil]
  congr 2
  omega

theorem intRange_self (l : Int) : intRange l l = [l] := by
  have h2 : intRange (l + 1) l = [] := by
    rw [intRange, show (l - (l + 1) + 1).toNat = 0 by omega]
    rfl
  rw [intRange_cons_of_le le_rfl, h2]

theorem bdrB_cons (l u x : Int) (ls us t : List Int) :
    bdrB (l :: ls) (u :: us) (x :: t) = ((x == l) || (x == u) || bdrB ls us t) := by
  cases hxl : (x == l) <;> cases hxu : (x == u) <;>
    simp [bdrB, List.zip_cons_cons, List.any_cons, hxl, hxu]

theorem atBoundCount_eq_zero_iff :
    ∀ (ls us t : List Int), ls.length = us.length → t.length = ls.length →
      (atBoundCount ls us t = 0 ↔ bdrB ls us t = false) := by
  intro ls
  induction ls with
  | nil =>
    intro us t h1 h2
    have hus : us = [] := by simpa using h1.symm
    have ht : t = [] := by simpa using h2
    subst hus; subst ht
    simp [atBoundCount, bdrB]
  | cons l ls ih =>
    intro us t h1 h2
    cases us with
    | nil => simp at h1
    | cons u us =>
      cases t with
      | nil => simp at h2
      | cons c cs =>
        rw [bdrB_cons]
        show ((if c = l ∨ c = u then 1 else 0) + atBoundCount ls us cs = 0 ↔ _)
        by_cases hb : c = l ∨ c = u
        · rw [if_pos hb]
          constructor
          · intro h; omega
          · intro h
            exfalso
            rcases hb with hb | hb <;> subst hb <;> simp at h
        · rw [if_neg hb]
          have hcl : (c == l) = false := by
            simp only [beq_eq_false_iff_ne, ne_eq]; tauto
          have hcu : (c == u) = false := by
            simp only [beq_eq_false_iff_ne, ne_eq]; tauto
          rw [hcl, hcu]
          simp only [Bool.false_or, Nat.zero_add]
          exact ih us cs (by simpa using h1) (by simpa using h2)

/-! ### Mode 1 (boundary): characterising the increment -/

/-- At scan positions i of at least 1 the mode-1 increment coincides
with the mode-0 increment: the jump branch requires c = 1 with
c starting from i+1, which is impossible there. -/
theorem bdrNextAux_ge_one (dim : Nat) :
    ∀ (low : Pt) (i : Nat), 1 ≤ i → ∀ (upp c : Pt),
      bdrNextAux dim i low upp c = cubeNext low upp c := by
  intro low
  induction low with
  | nil => intro i _ upp c; cases upp <;> cases c <;> rfl
  | cons l ls ih =>
    intro i hi upp c
    cases upp with
    | nil => rfl
    | cons u us =>
      cases c with
      | nil => rfl
      | cons x cs
      =>
        show (if x ≠ u then _ else _) = (if x ≠ u then _ else _)
        by_cases hxu : x ≠ u
        · rw [if_pos hxu, if_pos hxu]
          congr 2
          by_cases hcl : x = l ∧ (i + 1 ≠ dim ∨ dim = 1)
          · rw [if_pos hcl, if_neg (by omega)]
          · rw [if_neg hcl]
        · rw [if_neg hxu, if_neg hxu, ih (i + 1) (by omega) us cs]

/-- The mode-1 increment at the head axis: while the head is below its
upper limit it jumps straight to the upper limit exactly when it sits at
the lower limit and no other axis is at a bound; once the head is at the
upper limit, the tail advances like a mode-0 odometer and the head is
reset. -/
theorem bdrNextAux_zero_cons (dim : Nat) (l u c : Int) (ls us : List Int) (cs : Pt) :
    bdrNextAux dim 0 (l :: ls) (u :: us) (c :: cs) =
      if c ≠ u then
        some ((if c = l ∧ atBoundCount ls us cs = 0 then u else c + 1) :: cs)
      else (cubeNext ls us cs).map (fun t => l :: t) := by
  have htriv : (0 + 1 ≠ dim ∨ dim = 1) := by omega
  show (if c ≠ u then _ else _) = _
  by_cases hcu : c ≠ u
  · rw [if_pos hcu, if_pos hcu]
    congr 2
    by_cases hcl : c = l
    · by_cases hcnt : atBoundCount ls us cs = 0
      · rw [if_pos ⟨hcl, htriv⟩, if_pos (by omega), if_pos ⟨hcl, hcnt⟩]
      · rw [if_pos ⟨hcl, htriv⟩, if_neg (by omega), if_neg (by tauto)]
    · rw [if_neg (by tauto), if_neg (by tauto)]
  · rw [if_neg hcu, if_neg hcu, bdrNextAux_ge_one dim ls 1 (by omega) us cs]

/-- Running the mode-1 increment along a tail value that touches a
bound: the head sweeps from c up to the upper limit one step at a time,
then the tail advances (or the traversal ends). -/
theorem bdr_seg_run (dim : Nat) (l u : Int) (ls us : List Int) (cs : Pt)
    (hcnt : atBoundCount ls us cs ≠ 0) :
    ∀ (j : Nat), ∀ (c : Int), c + (j : Int) = u → l ≤ c → ∀ (m : Nat),
      iterO (bdrNextAux dim 0 (l :: ls) (u :: us)) (j + 1 + m) (c :: cs) =
        (intRange c u).map (fun x => x :: cs) ++
          (match cubeNext ls us cs with
           | none => []
           | some t => iterO (bdrNextAux dim 0 (l :: ls) (u :: us)) m (l :: t)) := by
  intro j
  induction j with
  | zero =>
    intro c hc _ m
    have hcu : c = u := by omega
    subst hcu
    rw [show 0 + 1 + m = m + 1 by omega, iterO, bdrNextAux_zero_cons,
      if_neg (by omega), intRange_self]
    cases hnext : cubeNext ls us cs <;> simp [hnext]
  | succ j ih =>
    intro c hc hlc m
    have hcu : c ≠ u := by omega
    rw [show j + 1 + 1 + m = (j + 1 + m) + 1 by omega, iterO, bdrNextAux_zero_cons,
      if_pos hcu, if_neg (by tauto)]
    rw [intRange_cons_of_le (by omega), List.map_cons]
    have := ih (c + 1) (by omega) (by omega) m
    exact congrArg (List.cons (c :: cs)) this

/-- Running the mode-1 increment along a strictly interior tail value:
the head jumps from the lower limit straight to the upper limit, then
the tail advances (or the traversal ends). -/
theorem bdr_seg_int (dim : Nat) (l u : Int) (ls us : List Int) (cs : Pt)
    (hcnt : atBoundCount ls us cs = 0) (hlu : l ≠ u) (m : Nat) :
    iterO (bdrNextAux dim 0 (l :: ls) (u :: us)) (2 + m) (l :: cs) =
      [l :: cs, u :: cs] ++
        (match cubeNext ls us cs with
         | none => []
         | some t => iterO (bdrNextAux dim 0 (l :: ls) (u :: us)) m (l :: t)) := by
  rw [show 2 + m = (m + 1) + 1 by omega, iterO, bdrNextAux_zero_cons,
    if_pos hlu, if_pos ⟨rfl, hcnt⟩]
  show (l :: cs) :: iterO (bdrNextAux dim 0 (l :: ls) (u :: us)) (m + 1) (u :: cs) = _
  rw [iterO, bdrNextAux_zero_cons, if_neg (by omega)]
  cases hnext : cubeNext ls us cs <;> simp [hnext]

/-- Running the mode-1 increment with a degenerate head axis: the single
head value is emitted and the tail advances immediately. -/
theorem bdr_seg_deg (dim : Nat) (l u : Int) (ls us : List Int) (cs : Pt)
    (heq : l = u) (m : Nat) :
    iterO (bdrNextAux dim 0 (l :: ls) (u :: us)) (1 + m) (l :: cs) =
      [l :: cs] ++
        (match cubeNext ls us cs with
         | none => []
         | some t => iterO (bdrNextAux dim 0 (l :: ls) (u :: us)) m (l :: t)) := by
  subst heq
  rw [show 1 + m = m + 1 by omega, iterO, bdrNextAux_zero_cons, if_neg (by omega)]
  cases hnext : cubeNext ls us cs <;> simp [hnext]

/-- The full mode-1 run from a lower-edge point: it is the concatenation
of the per-tail-value boundary segments, the tail advancing through the
cube enumeration of the remaining tail values. -/
theorem bdr_run_blocks (dim : Nat) (l u : Int) (ls us : List Int)
    (hlu : l ≤ u) (htail : List.Forall₂ (· ≤ ·) ls us) :
    ∀ (r : Nat), ∀ (j : Nat), j + r = nCube ls us → 0 < r → ∀ (extra : Nat),
      iterO (bdrNextAux dim 0 (l :: ls) (u :: us))
          ((((List.range' (j) r).map (unrank ls us)).flatMap (segPts l u ls us)).length + extra)
          (l :: unrank ls us j) =
        ((List.range' j r).map (unrank ls us)).flatMap (segPts l u ls us) := by
  intro r
  induction r with
  | zero => intro j _ h0 extra; omega
  | succ r ih =>
    intro j hjr _ extra
    have hjM : j < nCube ls us := by omega
    have hstep := cubeNext_unrank htail j hjM
    rw [List.range'_succ]
    simp only [List.map_cons, List.flatMap_cons]
    have hcont : (match cubeNext ls us (unrank ls us j) with
        | none => []
        | some t2 => iterO (bdrNextAux dim 0 (l :: ls) (u :: us))
            ((((List.range' (j + 1) r).map (unrank ls us)).flatMap (segPts l u ls us)).length + extra)
            (l :: t2)) =
        ((List.range' (j + 1) r).map (unrank ls us)).flatMap (segPts l u ls us) := by
      by_cases hj1 : j + 1 < nCube ls us
      · rw [hstep, if_pos hj1]
        exact ih (j + 1) (by omega) (by omega) extra
      · rw [hstep, if_neg hj1]
        have hr0 : r = 0 := by omega
        subst hr0
        rw [List.range'_zero]
        rfl
    by_cases hdeg : l = u
    · have hseg : segPts l u ls us (unrank ls us j) =
          [l :: unrank ls us j] := by
        rw [segPts, if_neg (by tauto), ← hdeg, intRange_self]
        rfl
      rw [hseg]
      have hfuel : ([l :: unrank ls us j] ++
          ((List.range' (j + 1) r).map (unrank ls us)).flatMap (segPts l u ls us)).length + extra =
          1 + ((((List.range' (j + 1) r).map (unrank ls us)).flatMap (segPts l u ls us)).length + extra) := by
        simp only [List.length_append, List.length_cons, List.length_nil]
        omega
      rw [hfuel, bdr_seg_deg dim l u ls us (unrank ls us j) hdeg, hcont]
    · by_cases hcnt : atBoundCount ls us (unrank ls us j) = 0
      · have hseg : segPts l u ls us (unrank ls us j) =
            [l :: unrank ls us j, u :: unrank ls us j] := by
          rw [segPts, if_pos ⟨hcnt, hdeg⟩]
        rw [hseg]
        have hfuel : ([l :: unrank ls us j, u :: unrank ls us j] ++
            ((List.range' (j + 1) r).map (unrank ls us)).flatMap (segPts l u ls us)).length + extra =
            2 + ((((List.range' (j + 1) r).map (unrank ls us)).flatMap (segPts l u ls us)).length + extra) := by
          simp only [List.length_append, List.length_cons, List.length_nil]
          omega
        rw [hfuel, bdr_seg_int dim l u ls us (unrank ls us j) hcnt hdeg, hcont]
      · have hseg : segPts l u ls us (unrank ls us j) =
            (intRange l u).map (fun x => x :: unrank ls us j) := by
          rw [segPts, if_neg (by tauto)]
        rw [hseg]
        have hfuel : ((intRange l u).map (fun x => x :: unrank ls us j) ++
            ((List.range' (j + 1) r).map (unrank ls us)).flatMap (segPts l u ls us)).length + extra =
            (u - l).toNat + 1 + ((((List.range' (j + 1) r).map (unrank ls us)).flatMap (segPts l u ls us)).length + extra) := by
          simp only [List.length_append, List.length_map, intRange_length]
          omega
        rw [hfuel, bdr_seg_run dim l u ls us (unrank ls us j) hcnt
          ((u - l).toNat) l (by omega) le_rfl, hcont]

theorem length_of_mem_fullEnum :
    ∀ (ls us : List Int) (t : Pt), t ∈ fullEnum ls us → t.length = ls.length := by
  intro ls
  induction ls with
  | nil =>
    intro us t ht
    cases us with
    | nil =>
      have : t = [] := by simpa [fullEnum] using ht
      simp [this]
    | cons u us => simp [fullEnum] at ht
  | cons l ls ih =>
    intro us t ht
    cases us with
    | nil => simp [fullEnum] at ht
    | cons u us =>
      rw [show fullEnum (l :: ls) (u :: us) =
        (fullEnum ls us).flatMap (fun t => (intRange l u).map (fun x => x :: t)) from rfl] at ht
      rw [List.mem_flatMap] at ht
      obtain ⟨t2, ht2, hmem⟩ := ht
      rw [List.mem_map] at hmem
      obtain ⟨x, _, rfl⟩ := hmem
      simp [ih us t2 ht2]

theorem segPts_length_le (l u : Int) (ls us : List Int) (hlu : l ≤ u) (t : Pt) :
    (segPts l u ls us t).length ≤ (u - l + 1).toNat := by
  rw [segPts]
  split_ifs with hc
  · have : l ≠ u := hc.2
    simp only [List.length_cons, List.length_nil]
    omega
  · simp [intRange_length]

/-- The boundary point count is at most the full box point count. -/
theorem bdr_total_length_le (l u : Int) (ls us : List Int)
    (hlu : l ≤ u) (htail : List.Forall₂ (· ≤ ·) ls us) :
    (((fullEnum ls us).flatMap (segPts l u ls us)).length) ≤ nCube (l :: ls) (u :: us) := by
  rw [List.length_flatMap]
  have hbound : ∀ x ∈ (fullEnum ls us).map (List.length ∘ segPts l u ls us),
      x ≤ (u - l + 1).toNat := by
    intro x hx
    rw [List.mem_map] at hx
    obtain ⟨t, _, rfl⟩ := hx
    exact segPts_length_le l u ls us hlu t
  calc ((fullEnum ls us).map (List.length ∘ segPts l u ls us)).sum
      ≤ ((fullEnum ls us).map (List.length ∘ segPts l u ls us)).length * (u - l + 1).toNat := by
        simpa [smul_eq_mul] using
          List.sum_le_card_nsmul ((fullEnum ls us).map (List.length ∘ segPts l u ls us))
            ((u - l + 1).toNat) hbound
    _ = nCube ls us * (u - l + 1).toNat := by
        rw [List.length_map, fullEnum_length htail]
    _ = nCube (l :: ls) (u :: us) := by
        show _ = (u - l + 1).toNat * nCube ls us
        exact Nat.mul_comm _ _

theorem intRange_filter_ends {l u : Int} (hlu : l < u) :
    (intRange l u).filter (fun x => x == l || x == u) = [l, u] := by
  rw [intRange_cons_of_le (le_of_lt hlu), intRange_concat_of_le (by omega)]
  rw [List.filter_cons_of_pos (by simp)]
  rw [List.filter_append]
  have hmid : (intRange (l + 1) (u - 1)).filter (fun x => x == l || x == u) = [] := by
    rw [List.filter_eq_nil_iff]
    intro x hx
    have := mem_intRange.mp hx
    simp only [Bool.or_eq_true, beq_iff_eq]
    omega
  rw [hmid]
  rw [List.filter_cons_of_pos (by simp)]
  rfl

/-- Filtering the full enumeration of a box keeps, for each tail value,
the boundary segment of the head axis. -/
theorem filter_fullEnum_cons (l u : Int) (ls us : List Int)
    (hlu : l ≤ u) (htail : List.Forall₂ (· ≤ ·) ls us) :
    (fullEnum (l :: ls) (u :: us)).filter (bdrB (l :: ls) (u :: us)) =
      (fullEnum ls us).flatMap (segPts l u ls us) := by
  show ((fullEnum ls us).flatMap (fun t => (intRange l u).map (fun x => x :: t))).filter _ = _
  rw [List.filter_flatMap]
  apply List.flatMap_congr
  intro t ht
  have htlen : t.length = ls.length := length_of_mem_fullEnum ls us t ht
  have huslen : ls.length = us.length := htail.length_eq
  rw [List.filter_map]
  have hpred : ((intRange l u).filter ((bdrB (l :: ls) (u :: us)) ∘ (fun x => x :: t))) =
      (intRange l u).filter (fun x => (x == l) || (x == u) || bdrB ls us t) := by
    apply List.filter_congr
    intro x _
    show bdrB (l :: ls) (u :: us) (x :: t) = _
    rw [bdrB_cons]
  rw [hpred]
  by_cases hb : bdrB ls us t = true
  · have hall : (intRange l u).filter (fun x => (x == l) || (x == u) || bdrB ls us t) =
        intRange l u := by
      rw [List.filter_eq_self]
      intro x _
      rw [hb]
      simp
    rw [hall, segPts, if_neg]
    rw [Classical.not_and_iff_or_not_not]
    left
    rw [atBoundCount_eq_zero_iff ls us t huslen htlen, hb]
    simp
  · have hb' : bdrB ls us t = false := by
      cases hbb : bdrB ls us t
      · rfl
      · exact absurd hbb hb
    have hcnt0 : atBoundCount ls us t = 0 :=
      (atBoundCount_eq_zero_iff ls us t huslen htlen).mpr hb'
    have hpred2 : (intRange l u).filter (fun x => (x == l) || (x == u) || bdrB ls us t) =
        (intRange l u).filter (fun x => (x == l) || (x == u)) := by
      apply List.filter_congr
      intro x _
      rw [hb']
      simp
    rw [hpred2]
    by_cases hdeg : l = u
    · subst hdeg
      rw [intRange_self, segPts, if_neg (by tauto), intRange_self]
      rw [List.filter_cons_of_pos (by simp)]
      rfl
    · rw [intRange_filter_ends (by omega), segPts, if_pos ⟨hcnt0, hdeg⟩]
      rfl

/-- The full mode-1 traversal emits exactly the boundary points of the
box, i.e. the full enumeration filtered by the boundary test, in
lexicographic order. -/
theorem emitted_bdr_eq_filter {low upp : Pt}
    (h : List.Forall₂ (· ≤ ·) low upp) (hne : low ≠ []) :
    emitted 1 low upp false = (fullEnum low upp).filter (bdrB low upp) := by
  cases low with
  | nil => exact absurd rfl hne
  | cons l ls =>
    cases upp with
    | nil => exact absurd h.length_eq (by simp)
    | cons u us =>
      rw [List.forall₂_cons] at h
      obtain ⟨hlu, htail⟩ := h
      have hlen0 : (l :: ls : Pt).length ≠ 0 := by simp
      show runSt 1 (fuelOf (resetSt (l :: ls) (u :: us) false))
        (resetSt (l :: ls) (u :: us) false) = _
      have hle : List.Forall₂ (· ≤ ·) ((l :: ls : Pt)) (u :: us) :=
        List.forall₂_cons.mpr ⟨hlu, htail⟩
      rw [runSt_eq_iterO 1 _ _ (by rw [resetSt_dim_of_le hle]; rfl) hlen0]
      rw [resetSt_low, resetSt_upp_false, resetSt_cur, fuelOf_resetSt_false hle]
      rw [filter_fullEnum_cons l u ls us hlu htail]
      have hM : 0 < nCube ls us := nCube_pos htail
      have htot := bdr_total_length_le l u ls us hlu htail
      have hrun := bdr_run_blocks ((l :: ls : Pt)).length l u ls us hlu htail
        (nCube ls us) 0 (Nat.zero_add _) hM
        (nCube (l :: ls) (u :: us) - ((fullEnum ls us).flatMap (segPts l u ls us)).length)
      rw [← List.range_eq_range', ← fullEnum_eq_map_unrank htail, unrank_zero htail] at hrun
      rw [Nat.add_sub_cancel' htot] at hrun
      exact hrun

/-! ### Counting the boundary points (mode 1) -/

theorem filter_partition_length {α : Type} (p : α → Bool) (l : List α) :
    (l.filter p).length + (l.filter (fun a => !p a)).length = l.length := by
  induction l with
  | nil => rfl
  | cons a l ih =>
    cases hpa : p a <;> simp [List.filter_cons, hpa, ← ih] <;> omega

theorem intRange_nil_of_lt {l u : Int} (h : u < l) : intRange l u = [] := by
  rw [intRange, show (u - l + 1).toNat = 0 by omega]
  rfl

theorem intRange_filter_middle {l u : Int} :
    (intRange l u).filter (fun x => !(x == l || x == u)) = intRange (l + 1) (u - 1) := by
  rcases lt_trichotomy l u with hlt | heq | hgt
  · rw [intRange_cons_of_le (le_of_lt hlt), intRange_concat_of_le (by omega)]
    rw [List.filter_cons_of_neg (by simp), List.filter_append]
    have hmid : (intRange (l + 1) (u - 1)).filter (fun x => !(x == l || x == u)) =
        intRange (l + 1) (u - 1) := by
      rw [List.filter_eq_self]
      intro x hx
      have := mem_intRange.mp hx
      simp only [Bool.not_eq_eq_eq_not, Bool.not_true, Bool.or_eq_false_iff, beq_eq_false_iff_ne,
        ne_eq]
      constructor <;> omega
    rw [hmid, show (([u] : List Int).filter (fun x => !(x == l || x == u))) = [] by simp]
    simp
  · subst heq
    rw [intRange_self, intRange_nil_of_lt (by omega)]
    simp
  · rw [intRange_nil_of_lt hgt, intRange_nil_of_lt (by omega)]
    rfl

theorem sum_map_ite_zero {α : Type} (L : List α) (p : α → Bool) (m : Nat) :
    (L.map (fun t => if p t = true then 0 else m)).sum =
      m * (L.filter (fun t => !p t)).length := by
  induction L with
  | nil => simp
  | cons a L ih =>
    cases hpa : p a
    · simp only [List.map_cons, List.sum_cons, List.filter_cons, hpa, ih]
      simp [Nat.mul_succ]
      omega
    · simp only [List.map_cons, List.sum_cons, List.filter_cons, hpa, ih]
      simp [Nat.mul_succ]

/-- The number of strictly interior points of a box with strictly
separated bounds is the product of the interior extents. -/
theorem length_filter_not_bdr {low upp : Pt} (h : List.Forall₂ (· < ·) low upp) :
    ((((fullEnum low upp).filter (fun p => !bdrB low upp p)).length : Nat) : Int) =
      (List.zipWith (fun l u => u - l - 1) low upp).prod := by
  induction h with
  | nil =>
    show ((List.filter _ [([] : Pt)]).length : Int) = 1
    rw [List.filter_cons_of_pos (by rfl)]
    rfl
  | @cons l u ls us hlu htail ih =>
    show (((((fullEnum ls us).flatMap
      (fun t => (intRange l u).map (fun x => x :: t))).filter
        (fun p => !bdrB (l :: ls) (u :: us) p)).length : Nat) : Int) = _
    rw [List.filter_flatMap, List.length_flatMap]
    have hmap : (fullEnum ls us).map
        (List.length ∘ fun t => ((intRange l u).map (fun x => x :: t)).filter
          (fun p => !bdrB (l :: ls) (u :: us) p)) =
        (fullEnum ls us).map
          (fun t => if bdrB ls us t = true then 0 else (u - l - 1).toNat) := by
      apply List.map_congr_left
      intro t _
      show (((intRange l u).map (fun x => x :: t)).filter
        (fun p => !bdrB (l :: ls) (u :: us) p)).length = _
      rw [List.filter_map, List.length_map]
      have hpred : ((intRange l u).filter ((fun p => !bdrB (l :: ls) (u :: us) p) ∘
          (fun x => x :: t))) =
          (intRange l u).filter (fun x => !((x == l) || (x == u) || bdrB ls us t)) := by
        apply List.filter_congr
        intro x _
        simp only [Function.comp]
        rw [bdrB_cons]
      rw [hpred]
      cases hb : bdrB ls us t
      · rw [if_neg (by simp)]
        simp only [Bool.or_false]
        rw [intRange_filter_middle, intRange_length]
        omega
      · rw [if_pos rfl]
        simp only [Bool.or_true, Bool.not_true]
        rw [List.filter_false]
        rfl
    rw [hmap, sum_map_ite_zero]
    show ((((u - l - 1).toNat) * ((fullEnum ls us).filter (fun t => !bdrB ls us t)).length : Nat) : Int) = _
    push_cast
    rw [ih]
    rw [show List.zipWith (fun l u => u - l - 1) (l :: ls) (u :: us) =
      (u - l - 1) :: List.zipWith (fun l u => u - l - 1) ls us from rfl, List.prod_cons]
    have : (((u - l - 1).toNat : Nat) : Int) = u - l - 1 := by omega
    rw [this]

/-- On a box with strictly separated bounds the number of boundary
points equals numPoints() of mode 1. -/
theorem length_filter_bdr {low upp : Pt} (h : List.Forall₂ (· < ·) low upp) :
    ((((fullEnum low upp).filter (bdrB low upp)).length : Nat) : Int) =
      numPointsBdr low upp := by
  have hle : List.Forall₂ (· ≤ ·) low upp := h.imp (fun _ _ => le_of_lt)
  have hpart := filter_partition_length (bdrB low upp) (fullEnum low upp)
  rw [fullEnum_length hle] at hpart
  have hint := length_filter_not_bdr h
  have htot : ((nCube low upp : Nat) : Int) = numPointsCube low upp :=
    (numPointsCube_eq_nCube hle).symm
  rw [numPointsBdr]
  rw [show (extents low upp).prod = numPointsCube low upp from rfl]
  omega

/-! ### Membership characterisations -/

/-- A point is produced by the full enumeration exactly when it lies in
the closed box componentwise. -/
theorem mem_fullEnum {low upp : Pt} (h : List.Forall₂ (· ≤ ·) low upp) :
    ∀ (p : Pt), p ∈ fullEnum low upp ↔
      (List.Forall₂ (· ≤ ·) low p ∧ List.Forall₂ (· ≤ ·) p upp) := by
  induction h with
  | nil =>
    intro p
    show p ∈ [([] : Pt)] ↔ _
    simp [List.forall₂_nil_left_iff, List.forall₂_nil_right_iff, eq_comm]
  | @cons l u ls us hlu htail ih =>
    intro p
    show p ∈ (fullEnum ls us).flatMap (fun t => (intRange l u).map (fun x => x :: t)) ↔ _
    rw [List.mem_flatMap]
    constructor
    · rintro ⟨t, ht, hmem⟩
      rw [List.mem_map] at hmem
      obtain ⟨x, hx, rfl⟩ := hmem
      have hxb := mem_intRange.mp hx
      have := (ih t).mp ht
      exact ⟨List.forall₂_cons.mpr ⟨hxb.1, this.1⟩, List.forall₂_cons.mpr ⟨hxb.2, this.2⟩⟩
    · rintro ⟨h1, h2⟩
      cases p with
      | nil => exact absurd h1.length_eq (by simp)
      | cons x t =>
        rw [List.forall₂_cons] at h1 h2
        refine ⟨t, (ih t).mpr ⟨h1.2, h2.2⟩, ?_⟩
        rw [List.mem_map]
        exact ⟨x, mem_intRange.mpr ⟨h1.1, h2.1⟩, rfl⟩

/-- The boundary test holds exactly when some axis sits at a bound. -/
theorem bdrB_eq_true_iff :
    ∀ (low upp p : Pt), p.length = low.length → p.length = upp.length →
      (bdrB low upp p = true ↔
        ∃ i, i < low.length ∧
          (p.getD i 0 = low.getD i 0 ∨ p.getD i 0 = upp.getD i 0)) := by
  intro low
  induction low with
  | nil =>
    intro upp p h1 h2
    have hp : p = [] := by simpa using h1
    have hu : upp = [] := by rw [hp] at h2; simpa using h2.symm
    subst hp; subst hu
    show (false = true ↔ _)
    simp
  | cons l ls ih =>
    intro upp p h1 h2
    cases p with
    | nil => simp at h1
    | cons x t =>
      cases upp with
      | nil => simp at h2
      | cons u us =>
        rw [bdrB_cons]
        have hiff := ih us t (by simpa using h1) (by simpa using h2)
        constructor
        · intro hb
          simp only [Bool.or_eq_true, beq_iff_eq] at hb
          rcases hb with (hb | hb) | hb
          · exact ⟨0, by simp, by simp [hb]⟩
          · exact ⟨0, by simp, by simp [hb]⟩
          · obtain ⟨i, hi, hd⟩ := hiff.mp hb
            exact ⟨i + 1, by simpa using hi, by simpa using hd⟩
        · rintro ⟨i, hi, hd⟩
          simp only [Bool.or_eq_true, beq_iff_eq]
          cases i with
          | zero =>
            simp only [List.getD_cons_zero] at hd
            tauto
          | succ i =>
            right
            apply hiff.mpr
            refine ⟨i, by simpa using hi, by simpa using hd⟩

/-! ### Reset after a traversal (all three iterators) -/

theorem iterate_stepSt_low (mode n : Nat) :
    ∀ (s : GridSt), ((stepSt mode)^[n] s).low = s.low := by
  induction n with
  | zero => intro s; rfl
  | succ n ih =>
    intro s
    rw [Function.iterate_succ_apply, ih, stepSt_low]

theorem iterate_stepSt_upp (mode n : Nat) :
    ∀ (s : GridSt), ((stepSt mode)^[n] s).upp = s.upp := by
  induction n with
  | zero => intro s; rfl
  | succ n ih =>
    intro s
    rw [Function.iterate_succ_apply, ih, stepSt_upp]

theorem resetSt0_congr (s t : GridSt) (hl : s.low = t.low) (hu : s.upp = t.upp) :
    resetSt0 s = resetSt0 t := by
  rw [resetSt0, resetSt0, hl, hu]

theorem resetSt0_resetSt (a b : Pt) (opn : Bool) :
    resetSt0 (resetSt a b opn) = resetSt a b opn := by
  cases opn <;> rfl

/-- After any number of increments, the parameterless reset restores the
state produced by the construction (also for an open construction: the
stored, already shifted bounds are reused as a closed range). -/
theorem resetSt0_iterate (mode n : Nat) (a b : Pt) (opn : Bool) :
    resetSt0 ((stepSt mode)^[n] (resetSt a b opn)) = resetSt a b opn := by
  rw [resetSt0_congr _ (resetSt a b opn) (iterate_stepSt_low mode n _)
    (iterate_stepSt_upp mode n _), resetSt0_resetSt]

theorem uStep_ulow (s : USt) : (uStep s).ulow = s.ulow := by
  rw [uStep]
  by_cases h : (stepSt 0 s.uiter).dim ≠ 0 <;> simp [h]

theorem uStep_uupp (s : USt) : (uStep s).uupp = s.uupp := by
  rw [uStep]
  by_cases h : (stepSt 0 s.uiter).dim ≠ 0 <;> simp [h]

theorem uStep_ustep (s : USt) : (uStep s).ustep = s.ustep := by
  rw [uStep]
  by_cases h : (stepSt 0 s.uiter).dim ≠ 0 <;> simp [h]

theorem uStep_uiter_low (s : USt) : (uStep s).uiter.low = s.uiter.low := by
  rw [uStep]
  by_cases h : (stepSt 0 s.uiter).dim ≠ 0 <;> simp [h, stepSt_low]

theorem uStep_uiter_upp (s : USt) : (uStep s).uiter.upp = s.uiter.upp := by
  rw [uStep]
  by_cases h : (stepSt 0 s.uiter).dim ≠ 0 <;> simp [h, stepSt_upp]

theorem uReset0_congr (s t : USt) (h1 : s.ulow = t.ulow) (h2 : s.uupp = t.uupp)
    (h3 : s.ustep = t.ustep) (h4 : s.uiter.low = t.uiter.low)
    (h5 : s.uiter.upp = t.uiter.upp) : uReset0 s = uReset0 t := by
  rw [uReset0, uReset0, h1, h2, h3, resetSt0_congr _ _ h4 h5]

theorem uReset0_iterate (n : Nat) (a b : List ℚ) (np : List Int) :
    uReset0 (uStep^[n] (uInit a b np)) = uInit a b np := by
  have h1 : ∀ (m : Nat) (s : USt), (uStep^[m] s).ulow = s.ulow := by
    intro m
    induction m with
    | zero => intro s; rfl
    | succ m ih => intro s; rw [Function.iterate_succ_apply, ih, uStep_ulow]
  have h2 : ∀ (m : Nat) (s : USt), (uStep^[m] s).uupp = s.uupp := by
    intro m
    induction m with
    | zero => intro s; rfl
    | succ m ih => intro s; rw [Function.iterate_succ_apply, ih, uStep_uupp]
  have h3 : ∀ (m : Nat) (s : USt), (uStep^[m] s).ustep = s.ustep := by
    intro m
    induction m with
    | zero => intro s; rfl
    | succ m ih => intro s; rw [Function.iterate_succ_apply, ih, uStep_ustep]
  have h4 : ∀ (m : Nat) (s : USt), (uStep^[m] s).uiter.low = s.uiter.low := by
    intro m
    induction m with
    | zero => intro s; rfl
    | succ m ih => intro s; rw [Function.iterate_succ_apply, ih, uStep_uiter_low]
  have h5 : ∀ (m : Nat) (s : USt), (uStep^[m] s).uiter.upp = s.uiter.upp := by
    intro m
    induction m with
    | zero => intro s; rfl
    | succ m ih => intro s; rw [Function.iterate_succ_apply, ih, uStep_uiter_upp]
  rw [uReset0_congr _ (uInit a b np) (h1 n _) (h2 n _) (h3 n _) (h4 n _) (h5 n _)]
  rfl

theorem cStep_cwise (s : CSt) : (cStep s).cwise = s.cwise := by
  rw [cStep]
  by_cases h : (stepSt 0 s.citer).dim ≠ 0 <;> simp [h]

theorem cStep_citer_low (s : CSt) : (cStep s).citer.low = s.citer.low := by
  rw [cStep]
  by_cases h : (stepSt 0 s.citer).dim ≠ 0 <;> simp [h, stepSt_low]

theorem cStep_citer_upp (s : CSt) : (cStep s).citer.upp = s.citer.upp := by
  rw [cStep]
  by_cases h : (stepSt 0 s.citer).dim ≠ 0 <;> simp [h, stepSt_upp]

theorem cUpdate_length (cw : List QMat) (it : GridSt) (old : List ℚ) :
    (cUpdate cw it old).length = old.length := by
  rw [cUpdate]
  simp

theorem cUpdate_getD_lt (cw : List QMat) (it : GridSt) (old : List ℚ)
    (i : Nat) (hib : i < curRowsOf cw) (hil : i < old.length) :
    (cUpdate cw it old).getD i 0 =
      ((cw.getD i ⟨0, 0, []⟩).data).getD (it.cur.getD i 0).toNat 0 := by
  rw [cUpdate, List.getD_eq_getElem _ _ (by simpa using hil), List.getElem_map,
    List.getElem_range, if_pos hib]

theorem cUpdate_getD_ge (cw : List QMat) (it : GridSt) (old : List ℚ)
    (i : Nat) (hib : curRowsOf cw ≤ i) :
    (cUpdate cw it old).getD i 0 = old.getD i 0 := by
  by_cases hil : i < old.length
  · rw [cUpdate, List.getD_eq_getElem _ _ (by simpa using hil), List.getElem_map,
      List.getElem_range, if_neg (by omega)]
  · rw [List.getD_eq_default _ _ (by rw [cUpdate_length]; omega),
      List.getD_eq_default _ _ (by omega)]

theorem cUpdate_congr_tail (cw : List QMat) (it : GridSt) (o1 o2 : List ℚ)
    (hlen : o1.length = o2.length)
    (htail : ∀ i, curRowsOf cw ≤ i → o1.getD i 0 = o2.getD i 0) :
    cUpdate cw it o1 = cUpdate cw it o2 := by
  rw [cUpdate, cUpdate, hlen]
  apply List.map_congr_left
  intro i _
  by_cases hib : i < curRowsOf cw
  · rw [if_pos hib, if_pos hib]
  · rw [if_neg hib, if_neg hib, htail i (by omega)]

theorem cStep_ccur_length (s : CSt) : (cStep s).ccur.length = s.ccur.length := by
  rw [cStep]
  by_cases h : (stepSt 0 s.citer).dim ≠ 0 <;> simp [h, cUpdate_length]

theorem cStep_ccur_ge (s : CSt) (i : Nat) (hib : curRowsOf s.cwise ≤ i) :
    (cStep s).ccur.getD i 0 = s.ccur.getD i 0 := by
  rw [cStep]
  split_ifs with h
  · exact cUpdate_getD_ge _ _ _ _ hib
  · rfl

theorem iterate_cStep_cwise (n : Nat) :
    ∀ (s : CSt), (cStep^[n] s).cwise = s.cwise := by
  induction n with
  | zero => intro s; rfl
  | succ n ih => intro s; rw [Function.iterate_succ_apply, ih, cStep_cwise]

theorem iterate_cStep_ccur_length (n : Nat) :
    ∀ (s : CSt), (cStep^[n] s).ccur.length = s.ccur.length := by
  induction n with
  | zero => intro s; rfl
  | succ n ih => intro s; rw [Function.iterate_succ_apply, ih, cStep_ccur_length]

/-- The linear entries of m_cur beyond the update() loop bound are never
written: they keep their construction-time contents across any number of
increments. -/
theorem iterate_cStep_ccur_ge (n : Nat) :
    ∀ (s : CSt) (i : Nat), curRowsOf s.cwise ≤ i →
      (cStep^[n] s).ccur.getD i 0 = s.ccur.getD i 0 := by
  induction n with
  | zero => intro s i _; rfl
  | succ n ih =>
    intro s i hib
    rw [Function.iterate_succ_apply, ih (cStep s) i (by rw [cStep_cwise]; exact hib),
      cStep_ccur_ge s i hib]

theorem cReset0_iterate (n : Nat) (cw : List QMat) (junk : List ℚ) :
    cReset0 (cStep^[n] (cInit cw junk)) = cInit cw junk := by
  have h4 : ∀ (m : Nat) (s : CSt), (cStep^[m] s).citer.low = s.citer.low := by
    intro m
    induction m with
    | zero => intro s; rfl
    | succ m ih => intro s; rw [Function.iterate_succ_apply, ih, cStep_citer_low]
  have h5 : ∀ (m : Nat) (s : CSt), (cStep^[m] s).citer.upp = s.citer.upp := by
    intro m
    induction m with
    | zero => intro s; rfl
    | succ m ih => intro s; rw [Function.iterate_succ_apply, ih, cStep_citer_upp]
  have hcw : (cStep^[n] (cInit cw junk)).cwise = cw := iterate_cStep_cwise n _
  have hit : resetSt0 ((cStep^[n] (cInit cw junk)).citer) = (cInit cw junk).citer := by
    rw [resetSt0_congr _ (cInit cw junk).citer (h4 n _) (h5 n _)]
    exact resetSt0_resetSt _ _ false
  have hbase : (cInit cw junk).ccur =
      cUpdate cw (cInit cw junk).citer
        ((List.range cw.length).map (fun i => junk.getD i 0)) := rfl
  have hccur : cUpdate (cStep^[n] (cInit cw junk)).cwise
      (resetSt0 ((cStep^[n] (cInit cw junk)).citer))
      ((cStep^[n] (cInit cw junk)).ccur) = (cInit cw junk).ccur := by
    rw [hcw, hit, hbase]
    have hlen2 : ((cStep^[n] (cInit cw junk)).ccur).length =
        ((List.range cw.length).map (fun i => junk.getD i 0)).length := by
      rw [iterate_cStep_ccur_length n _, hbase, cUpdate_length]
    refine cUpdate_congr_tail cw _ _ _ hlen2 ?_
    intro i hib
    have hib2 : curRowsOf (cInit cw junk).cwise ≤ i := hib
    rw [iterate_cStep_ccur_ge n _ i hib2, hbase, cUpdate_getD_ge _ _ _ _ hib]
  show CSt.mk (cStep^[n] (cInit cw junk)).cwise
      (resetSt0 ((cStep^[n] (cInit cw junk)).citer))
      (cUpdate (cStep^[n] (cInit cw junk)).cwise
        (resetSt0 ((cStep^[n] (cInit cw junk)).citer))
        ((cStep^[n] (cInit cw junk)).ccur)) = cInit cw junk
  rw [hccur, hcw, hit]
  rfl

/-! ### The coordinate-wise traversal as a mapped lattice traversal -/

theorem cRun_dim0 (n : Nat) (s : CSt) (h : s.citer.dim = 0) : cRun n s = [] := by
  cases n with
  | zero => rfl
  | succ n => simp [cRun, stBool, h]

/-- Running the coordinate-wise iterator from a state whose m_cur was
produced by update() applied to some memory contents `old` agreeing with
`base` on the never-written entries yields the per-point update() of
`base` along the underlying lattice traversal. -/
theorem cRun_eq_map (cw : List QMat) (base : List ℚ) :
    ∀ (n : Nat) (it : GridSt) (old : List ℚ),
      old.length = base.length →
      (∀ i, curRowsOf cw ≤ i → old.getD i 0 = base.getD i 0) →
      cRun n { cwise := cw, citer := it, ccur := cUpdate cw it old } =
        (runSt 0 n it).map (fun p => cUpdate cw (GridSt.mk [] [] p 0) base) := by
  intro n
  induction n with
  | zero => intro it old _ _; rfl
  | succ n ih =>
    intro it old hlen htail
    by_cases hdim : it.dim ≠ 0
    · rw [cRun, if_pos (by simpa [stBool] using hdim), runSt, if_pos hdim]
      rw [List.map_cons]
      have hhead : cUpdate cw it old = cUpdate cw (GridSt.mk [] [] it.cur 0) base := by
        rw [cUpdate_congr_tail cw it old base hlen htail]
        rfl
      refine List.cons_eq_cons.mpr ⟨hhead, ?_⟩
      by_cases h2 : (stepSt 0 it).dim ≠ 0
      · have hcstep : cStep (CSt.mk cw it (cUpdate cw it old)) =
            CSt.mk cw (stepSt 0 it) (cUpdate cw (stepSt 0 it) (cUpdate cw it old)) := by
          rw [cStep, if_pos h2]
        have hlen2 : (cUpdate cw it old).length = base.length := by
          rw [cUpdate_length]
          exact hlen
        have htail2 : ∀ i, curRowsOf cw ≤ i →
            (cUpdate cw it old).getD i 0 = base.getD i 0 := by
          intro i hib
          rw [cUpdate_getD_ge _ _ _ _ hib]
          exact htail i hib
        rw [hcstep, ih (stepSt 0 it) (cUpdate cw it old) hlen2 htail2]
      · have h2' : (stepSt 0 it).dim = 0 := by omega
        have hcstep : (cStep (CSt.mk cw it (cUpdate cw it old))).citer.dim = 0 := by
          rw [cStep, if_neg h2]
          exact h2'
        rw [cRun_dim0 n _ hcstep, runSt_dim0 0 n _ h2']
        rfl
    · have hdim0 : it.dim = 0 := by omega
      rw [cRun_dim0 _ _ hdim0, runSt_dim0 0 _ _ hdim0]
      rfl

theorem forall₂_getD {R : Int → Int → Prop} :
    ∀ (xs ys : List Int), List.Forall₂ R xs ys →
      ∀ i, i < xs.length → R (xs.getD i 0) (ys.getD i 0) := by
  intro xs ys h
  induction h with
  | nil => intro i hi; simp at hi
  | @cons x y xs ys hxy htail ih =>
    intro i hi
    cases i with
    | zero => simpa using hxy
    | succ i =>
      rw [List.getD_cons_succ, List.getD_cons_succ]
      exact ih i (by simpa using hi)

theorem cwise_box_valid (cw : List QMat) (hrows : ∀ m ∈ cw, 1 ≤ m.rows) :
    List.Forall₂ (· ≤ ·) (List.replicate cw.length (0 : Int))
      (cw.map (fun m => (m.rows : Int) - 1)) := by
  induction cw with
  | nil => exact List.Forall₂.nil
  | cons m cw ih =>
    rw [List.length_cons, List.replicate_succ, List.map_cons]
    refine List.forall₂_cons.mpr ⟨?_, ih (fun m hm => hrows m (by simp [hm]))⟩
    have := hrows m (by simp)
    omega

theorem nCube_cwise (cw : List QMat) (hrows : ∀ m ∈ cw, 1 ≤ m.rows) :
    nCube (List.replicate cw.length (0 : Int))
      (cw.map (fun m => (m.rows : Int) - 1)) = (cw.map (fun m => m.rows)).prod := by
  induction cw with
  | nil => rfl
  | cons m cw ih =>
    rw [List.length_cons, List.replicate_succ, List.map_cons, List.map_cons, List.prod_cons]
    show ((m.rows : Int) - 1 - 0 + 1).toNat * _ = _
    rw [ih (fun m hm => hrows m (by simp [hm]))]
    have := hrows m (by simp)
    have hr : ((m.rows : Int) - 1 - 0 + 1).toNat = m.rows := by omega
    rw [hr]

/-- The coordinate-wise traversal is the image, under the partial
per-axis update() step starting from the construction-time memory
contents, of the full-cube lattice traversal over [0, rows - 1]. -/
theorem cEmit_eq_map (cw : List QMat) (junk : List ℚ) (hne : cw ≠ [])
    (hrows : ∀ m ∈ cw, 1 ≤ m.rows) :
    cEmit cw junk =
      (fullEnum (List.replicate cw.length (0 : Int))
          (cw.map (fun m => (m.rows : Int) - 1))).map
        (fun p => cUpdate cw (GridSt.mk [] [] p 0)
          ((List.range cw.length).map (fun i => junk.getD i 0))) := by
  have hval := cwise_box_valid cw hrows
  have hlen : cw.length ≠ 0 := by simpa using hne
  have hnil : (List.replicate cw.length (0 : Int)) ≠ [] := by
    intro hcontra
    apply hlen
    simpa using congrArg List.length hcontra
  rw [show cEmit cw junk = cRun
      (fuelOf (resetSt (List.replicate cw.length (0 : Int))
        (cw.map (fun m => (m.rows : Int) - 1)) false))
      (cInit cw junk) from rfl]
  rw [show cInit cw junk = CSt.mk cw
      (resetSt (List.replicate cw.length (0 : Int))
        (cw.map (fun m => (m.rows : Int) - 1)) false)
      (cUpdate cw (resetSt (List.replicate cw.length (0 : Int))
        (cw.map (fun m => (m.rows : Int) - 1)) false)
        ((List.range cw.length).map (fun i => junk.getD i 0))) from rfl]
  rw [cRun_eq_map cw ((List.range cw.length).map (fun i => junk.getD i 0)) _ _ _
    rfl (fun _ _ => rfl)]
  rw [show runSt 0
      (fuelOf (resetSt (List.replicate cw.length (0 : Int))
        (cw.map (fun m => (m.rows : Int) - 1)) false))
      (resetSt (List.replicate cw.length (0 : Int))
        (cw.map (fun m => (m.rows : Int) - 1)) false) =
      emitted 0 (List.replicate cw.length (0 : Int))
        (cw.map (fun m => (m.rows : Int) - 1)) false from rfl]
  rw [emitted_cube_eq_fullEnum hval hnil]

/-! ### The claims -/

/-- C1: for every non-empty box of dimension at least 1 in which every
axis extent upp[i]-low[i]+1 is at least 2, the mode-1 (boundary)
iterator's full traversal emits exactly the set of lattice points of the
box that have at least one coordinate equal to low[i] or upp[i]; in
particular for low=[0,0], upp=[2,2] it emits exactly the 8 perimeter
points of the 3x3 grid, excluding (1,1). -/
theorem claim_C1 (low upp : Pt)
    (h : List.Forall₂ (fun l u => l + 1 ≤ u) low upp) (hne : low ≠ []) :
    (∀ p : Pt, p ∈ emitted 1 low upp false ↔
      ((List.Forall₂ (· ≤ ·) low p ∧ List.Forall₂ (· ≤ ·) p upp) ∧
        ∃ i, i < low.length ∧
          (p.getD i 0 = low.getD i 0 ∨ p.getD i 0 = upp.getD i 0))) ∧
    emitted 1 [0, 0] [2, 2] false =
      [[0, 0], [1, 0], [2, 0], [0, 1], [2, 1], [0, 2], [1, 2], [2, 2]] := by
  have hle : List.Forall₂ (· ≤ ·) low upp := h.imp (fun _ _ hx => by omega)
  constructor
  · intro p
    rw [emitted_bdr_eq_filter hle hne, List.mem_filter, mem_fullEnum hle p]
    constructor
    · rintro ⟨⟨h1, h2⟩, hb⟩
      exact ⟨⟨h1, h2⟩,
        (bdrB_eq_true_iff low upp p h1.length_eq.symm h2.length_eq).mp hb⟩
    · rintro ⟨⟨h1, h2⟩, hex⟩
      exact ⟨⟨h1, h2⟩,
        (bdrB_eq_true_iff low upp p h1.length_eq.symm h2.length_eq).mpr hex⟩
  · decide

/-- Witness for C1 at the box [0,0]..[2,2] and the interior point (1,1),
which the characterisation excludes from the emitted set. -/
theorem claim_C1_witness :
    ¬ (([1, 1] : Pt) ∈ emitted 1 [0, 0] [2, 2] false) := by
  have h : List.Forall₂ (fun l u => l + 1 ≤ u) ([0, 0] : Pt) [2, 2] :=
    List.Forall₂.cons (by norm_num) (List.Forall₂.cons (by norm_num) List.Forall₂.nil)
  rw [(claim_C1 [0, 0] [2, 2] h (by simp)).1 [1, 1]]
  rintro ⟨-, i, hi, hd⟩
  have hi2 : i < 2 := by simpa using hi
  interval_cases i <;> simp_all

/-- C2 counterexample: on the one-axis box low = upp = [0] (extent 1)
the mode-1 traversal emits one point, but numPoints() returns
1 - (-1) = 2, so the claimed equality fails; the interior term does not
vanish on extent-1 axes. -/
theorem claim_C2_counterexample :
    ¬ (((emitted 1 [0] [0] false).length : Int) = numPointsBdr [0] [0]) := by
  decide

/-- C2 (amended): for every box of dimension at least 1 in which every
axis extent is at least 2, the number of points emitted by a full mode-1
traversal equals numPoints() = prod(upp-low+1) - prod(upp-low-1).  (As
stated the claim is false: on a box with an axis of extent 1 the
interior term is a product containing the factor -1, not 0, so
numPoints() can differ from the emitted count, e.g. low = upp = [0].) -/
theorem claim_C2 (low upp : Pt)
    (h : List.Forall₂ (fun l u => l + 1 ≤ u) low upp) (hne : low ≠ []) :
    ((emitted 1 low upp false).length : Int) = numPointsBdr low upp := by
  have hlt : List.Forall₂ (· < ·) low upp := h.imp (fun _ _ hx => by omega)
  have hle : List.Forall₂ (· ≤ ·) low upp := h.imp (fun _ _ hx => by omega)
  rw [emitted_bdr_eq_filter hle hne]
  exact length_filter_bdr hlt

/-- Witness for C2 at the box [0,0]..[2,2]: 8 emitted points and
numPoints() = 9 - 1 = 8. -/
theorem claim_C2_witness :
    ((emitted 1 [0, 0] [2, 2] false).length : Int) = numPointsBdr [0, 0] [2, 2] :=
  claim_C2 [0, 0] [2, 2]
    (List.Forall₂.cons (by norm_num) (List.Forall₂.cons (by norm_num) List.Forall₂.nil))
    (by simp)

/-- C5: for every non-empty box of dimension at least 1, the mode-0
(full box) iterator's full traversal emits exactly
prod(upp[i]-low[i]+1) points, and this count equals numPoints(). -/
theorem claim_C5 (low upp : Pt)
    (h : List.Forall₂ (· ≤ ·) low upp) (hne : low ≠ []) :
    ((emitted 0 low upp false).length : Int) = (extents low upp).prod ∧
    ((emitted 0 low upp false).length : Int) = numPointsCube low upp := by
  have hlen : (emitted 0 low upp false).length = nCube low upp := by
    rw [emitted_cube_eq_fullEnum h hne, fullEnum_length h]
  have : ((emitted 0 low upp false).length : Int) = numPointsCube low upp := by
    rw [hlen, numPointsCube_eq_nCube h]
  exact ⟨this, this⟩

/-- Witness for C5 at the box [0,0]..[2,1]: 3 * 2 = 6 points. -/
theorem claim_C5_witness :
    ((emitted 0 [0, 0] [2, 1] false).length : Int) = (extents [0, 0] [2, 1]).prod ∧
    ((emitted 0 [0, 0] [2, 1] false).length : Int) = numPointsCube [0, 0] [2, 1] :=
  claim_C5 [0, 0] [2, 1]
    (List.Forall₂.cons (by norm_num) (List.Forall₂.cons (by norm_num) List.Forall₂.nil))
    (by simp)

/-- C6 counterexample: on the one-axis box low = upp = [0] (a single
point) the mode-2 traversal emits one point, while 2^d = numPoints() is
2, so the claimed count fails for degenerate boxes. -/
theorem claim_C6_counterexample :
    ¬ (((emitted 2 [0] [0] false).length : Int) = numPointsVertex [0]) := by
  decide

/-- C6 (amended): for every box of dimension at least 1 with strictly
separated bounds (low[i] < upp[i] for all i), the mode-2 (vertices)
iterator's full traversal emits exactly 2^d points, equal to
numPoints(), and every emitted point's every coordinate equals low[i] or
upp[i]; in particular low=[0,0], upp=[2,2] yields exactly
[(0,0),(2,0),(0,2),(2,2)].  (As stated the claim is false: on a box with
an axis of extent 1 the traversal skips that axis and emits fewer than
2^d points, e.g. low = upp = [0].) -/
theorem claim_C6 (low upp : Pt)
    (h : List.Forall₂ (· < ·) low upp) (hne : low ≠ []) :
    ((emitted 2 low upp false).length : Int) = 2 ^ low.length ∧
    ((emitted 2 low upp false).length : Int) = numPointsVertex low ∧
    (∀ p ∈ emitted 2 low upp false, ∀ i, i < low.length →
      p.getD i 0 = low.getD i 0 ∨ p.getD i 0 = upp.getD i 0) ∧
    emitted 2 [0, 0] [2, 2] false = [[0, 0], [2, 0], [0, 2], [2, 2]] := by
  have hle : List.Forall₂ (· ≤ ·) low upp := h.imp (fun _ _ => le_of_lt)
  have hlen : ((emitted 2 low upp false).length : Int) = 2 ^ low.length := by
    rw [emitted_vertex_eq h hne, List.length_map, List.length_range]
    push_cast
    rfl
  refine ⟨hlen, by rw [hlen]; rfl, ?_, by decide⟩
  intro p hp i hi
  rw [emitted_vertex_eq h hne, List.mem_map] at hp
  obtain ⟨k, _, rfl⟩ := hp
  exact unrankV_getD hle k i hi

/-- Witness for C6 at the box [0,0]..[2,2]. -/
theorem claim_C6_witness :
    ((emitted 2 [0, 0] [2, 2] false).length : Int) = 2 ^ ([0, 0] : Pt).length :=
  (claim_C6 [0, 0] [2, 2]
    (List.Forall₂.cons (by norm_num) (List.Forall₂.cons (by norm_num) List.Forall₂.nil))
    (by simp)).1

/-- C7: for every non-empty box of dimension at least 1 and the mode-0
iterator, strides() returns the vector s with s[0] = 1 and
s[k] = s[k-1] * (upp[k-1]-low[k-1]+1), and along the traversal the flat
index dot(p - low, strides()) increases by exactly 1 at each step. -/
theorem claim_C7 (low upp : Pt)
    (h : List.Forall₂ (· ≤ ·) low upp) (hne : low ≠ []) :
    ((stridesList low upp).getD 0 0 = 1 ∧
      ∀ k, k + 1 < (stridesList low upp).length →
        (stridesList low upp).getD (k + 1) 0 =
          (stridesList low upp).getD k 0 * (upp.getD k 0 - low.getD k 0 + 1)) ∧
    List.Chain' (fun p q => flatIdx low upp q = flatIdx low upp p + 1)
      (emitted 0 low upp false) := by
  refine ⟨⟨?_, stridesList_succ low upp⟩, ?_⟩
  · cases low with
    | nil => exact absurd rfl hne
    | cons l ls =>
      cases upp with
      | nil => exact absurd h.length_eq (by simp)
      | cons u us => exact stridesList_getD_zero l u ls us
  · rw [emitted_cube_eq_fullEnum h hne, fullEnum_eq_map_unrank h, List.chain'_map]
    cases hN : nCube low upp with
    | zero => simp
    | succ n =>
      rw [List.chain'_range_succ]
      intro m hm
      have h1 := flatIdx_unrank h m (by omega)
      have h2 := flatIdx_unrank h (m + 1) (by omega)
      rw [h1, h2]
      push_cast
      ring

/-- Witness for C7: the two-dimensional box [0,0]..[2,1] (extents 3 and
2): the flat index along the six emitted points increases by one at
each step. -/
theorem claim_C7_witness :
    List.Chain' (fun p q => flatIdx [0, 0] [2, 1] q = flatIdx [0, 0] [2, 1] p + 1)
      (emitted 0 [0, 0] [2, 1] false) :=
  (claim_C7 [0, 0] [2, 1]
    (List.Forall₂.cons (by norm_num) (List.Forall₂.cons (by norm_num) List.Forall₂.nil))
    (by simp)).2

/-- C3: the claim describes the intended endpoint snapping of the
Uniform Sample Iterator, but the code disagrees: the mode-0 isCeil used
by the update tests latticeIndex + 1 == np - 1, so the snap to b[i]
fires at lattice index np[i]-2 (the second-to-last sample) instead of
np[i]-1, and the last sample is computed by the step formula instead.
Concretely, for a = [0], b = [2], np = [3] the code emits
[[0], [2], [2]] where the claim requires [[0], [1], [2]]. -/
theorem claim_C3 :
    uEmit [0] [2] [3] = [[0], [2], [2]] ∧
    ¬ (uEmit [0] [2] [3] = [[0], [1], [2]]) := by
  constructor
  · norm_num [uEmit, uRun, uInit, uReset, uStep, resetSt, resetSt0, stepSt, nextDisp,
      cubeNext, fuelOf, numPointsCube, extents, allLe, stBool, isFloorSt, isCeilSt,
      numPointsCwiseSt, show List.range 1 = [0] from rfl]
  · norm_num [uEmit, uRun, uInit, uReset, uStep, resetSt, resetSt0, stepSt, nextDisp,
      cubeNext, fuelOf, numPointsCube, extents, allLe, stBool, isFloorSt, isCeilSt,
      numPointsCwiseSt, show List.range 1 = [0] from rfl]

/-- C4: the claim (and the isCeil documentation) say isCeil(i) tests
m_cur[i] == m_upp[i] in every mode, but in mode 0 the code tests
m_cur[i] + 1 == m_upp[i].  On the mode-0 box [0]..[2], after two
increments the current point is [2] = upp yet isCeil(0) is false, and
after one increment the current point is [1] (not the maximum) yet
isCeil(0) is true.  Modes 1 and 2 test m_cur[i] == m_upp[i] as claimed. -/
theorem claim_C4 :
    (((stepSt 0)^[2] (resetSt [0] [2] false)).cur = [2] ∧
      isCeilSt 0 ((stepSt 0)^[2] (resetSt [0] [2] false)) 0 = false) ∧
    (((stepSt 0)^[1] (resetSt [0] [2] false)).cur = [1] ∧
      isCeilSt 0 ((stepSt 0)^[1] (resetSt [0] [2] false)) 0 = true) ∧
    (∀ (mode : Nat) (s : GridSt) (i : Nat), mode ≠ 0 →
      (isCeilSt mode s i = true ↔ s.cur.getD i 0 = s.upp.getD i 0)) ∧
    (∀ (s : GridSt) (i : Nat),
      (isFloorSt s i = true ↔ s.cur.getD i 0 = s.low.getD i 0)) := by
  refine ⟨by decide, by decide, ?_, ?_⟩
  · intro mode s i hm
    rw [isCeilSt, if_pos hm]
    simp
  · intro s i
    rw [isFloorSt]
    simp

/-- Witness for C4: in mode 1 on a freshly constructed iterator over
[0]..[2] the non-zero-mode characterisation of isCeil applies. -/
theorem claim_C4_witness :
    isCeilSt 1 (resetSt [0] [2] false) 0 = true ↔
      (resetSt [0] [2] false).cur.getD 0 0 = (resetSt [0] [2] false).upp.getD 0 0 :=
  claim_C4.2.2.1 1 (resetSt [0] [2] false) 0 (by norm_num)

/-- C8: for each of the three iterators, after any number of increments
(in particular after a full traversal to exhaustion) followed by the
parameterless reset(), the state equals the freshly constructed one, so
a second traversal emits exactly the same sequence of points as the
first — also when the integer lattice iterator was constructed with
open = true, since reset() reuses the stored, already shifted bounds as
a closed range. -/
theorem claim_C8 :
    (∀ (a b : Pt) (opn : Bool) (mode n fuel : Nat),
      runSt mode fuel (resetSt0 ((stepSt mode)^[n] (resetSt a b opn))) =
        runSt mode fuel (resetSt a b opn)) ∧
    (∀ (a b : List ℚ) (np : List Int) (n fuel : Nat),
      uRun fuel (uReset0 (uStep^[n] (uInit a b np))) = uRun fuel (uInit a b np)) ∧
    (∀ (cw : List QMat) (junk : List ℚ) (n fuel : Nat),
      cRun fuel (cReset0 (cStep^[n] (cInit cw junk))) = cRun fuel (cInit cw junk)) := by
  refine ⟨?_, ?_, ?_⟩
  · intro a b opn mode n fuel
    rw [resetSt0_iterate]
  · intro a b np n fuel
    rw [uReset0_iterate]
  · intro cw junk n fuel
    rw [cReset0_iterate]

/-- C9: constructing (or resetting) an integer lattice iterator with an
empty box — low[i] > upp[i] after the optional open-mode shift on some
axis — does not fail: the boolean conversion is false immediately and
the traversal emits no points, in every mode. -/
theorem claim_C9 (a b : Pt) (opn : Bool)
    (hbad : ∃ i, i < a.length ∧ i < b.length ∧
      (if opn then b.map (fun x => x - 1) else b).getD i 0 < a.getD i 0) :
    stBool (resetSt a b opn) = false ∧ ∀ mode, emitted mode a b opn = [] := by
  obtain ⟨i, hia, hib, hlt⟩ := hbad
  have hiu : i < (if opn then b.map (fun x => x - 1) else b).length := by
    cases opn <;> simpa using hib
  have hall : allLe a (if opn then b.map (fun x => x - 1) else b) = false := by
    rw [← Bool.not_eq_true]
    intro htrue
    rw [allLe, List.all_eq_true] at htrue
    have hmem : (a.getD i 0, (if opn then b.map (fun x => x - 1) else b).getD i 0) ∈
        a.zip (if opn then b.map (fun x => x - 1) else b) := by
      rw [List.getD_eq_getElem _ _ hia, List.getD_eq_getElem _ _ hiu]
      have hzip : i < (a.zip (if opn then b.map (fun x => x - 1) else b)).length := by
        rw [List.length_zip]
        omega
      have := @List.getElem_zip _ _ a (if opn then b.map (fun x => x - 1) else b) i hzip
      rw [← this]
      exact List.getElem_mem hzip
    have := htrue _ hmem
    simp only [decide_eq_true_eq] at this
    omega
  have hdim : (resetSt a b opn).dim = 0 := by
    rw [resetSt]
    simp only [hall]
    rfl
  refine ⟨?_, ?_⟩
  · rw [stBool, hdim]
    rfl
  · intro mode
    exact runSt_dim0 mode _ _ hdim

/-- Witness for C9: a = [1], b = [0] closed is an empty box. -/
theorem claim_C9_witness :
    stBool (resetSt [1] [0] false) = false :=
  (claim_C9 [1] [0] false ⟨0, by norm_num, by norm_num, by norm_num⟩).1

/-- C10 counterexample: the construction-time assertion accepts the
2-by-1 column [5, 5], whose entries repeat; axis 0 then enumerates two
lattice positions but only one distinct value, so the number of distinct
values is not rows() = 2. -/
theorem claim_C10_counterexample :
    ¬ ((((cEmit [⟨2, 1, [5, 5]⟩] []).map (fun p => p.getD 0 0)).dedup).length =
      (([⟨2, 1, [5, 5]⟩] : List QMat).getD 0 ⟨0, 0, []⟩).rows) := by
  decide

/-- C10 (amended): for the coordinate-wise iterator the number of
lattice positions enumerated on axis i is exactly cwise[i].rows() (the
extent is rows()-1, iterated as a closed range), so the traversal has
prod rows() points; but update() writes only the first m_cur.rows()
entries of the current point, where the constructor sizes m_cur as
cwise.size()-by-1 iff the first table is a single row and 1-by-cwise.size()
otherwise. On the written axes (all of them when the first table is a
row vector, only axis 0 otherwise) the values enumerated are exactly the
table's linear entries at indices 0..rows()-1, with multiplicity (the
distinct count can be smaller when entries repeat, and a 1-by-n row
vector is read through its first column only, contributing just its
first entry); the remaining coordinates keep the construction-time
memory contents on every emitted point. -/
theorem claim_C10 (cw : List QMat) (junk : List ℚ) (hne : cw ≠ [])
    (hrows : ∀ m ∈ cw, 1 ≤ m.rows) :
    (cEmit cw junk).length = (cw.map (fun m => m.rows)).prod ∧
    (∀ i, i < curRowsOf cw → ∀ v : ℚ,
      (v ∈ (cEmit cw junk).map (fun p => p.getD i 0) ↔
        ∃ k, k < (cw.getD i ⟨0, 0, []⟩).rows ∧
          v = ((cw.getD i ⟨0, 0, []⟩).data).getD k 0)) ∧
    (∀ i, curRowsOf cw ≤ i → i < cw.length →
      ∀ p ∈ cEmit cw junk, p.getD i 0 = junk.getD i 0) := by
  have hval := cwise_box_valid cw hrows
  have hcrle : curRowsOf cw ≤ cw.length := by
    rw [curRowsOf]
    have hlen0 : cw.length ≠ 0 := by simpa using hne
    split_ifs
    · exact le_refl _
    · omega
  have hbase : ∀ j, j < cw.length →
      ((List.range cw.length).map (fun i => junk.getD i 0)).getD j 0 =
        junk.getD j 0 := by
    intro j hj
    rw [List.getD_eq_getElem _ _ (by simpa using hj), List.getElem_map,
      List.getElem_range]
  refine ⟨?_, ?_, ?_⟩
  · rw [cEmit_eq_map cw junk hne hrows, List.length_map, fullEnum_length hval,
      nCube_cwise cw hrows]
  · intro i hicr v
    have hi : i < cw.length := by omega
    rw [cEmit_eq_map cw junk hne hrows, List.map_map]
    have hnp : ((cw.map (fun m => (m.rows : Int) - 1)).getD i 0) =
        ((cw.getD i ⟨0, 0, []⟩).rows : Int) - 1 := by
      rw [List.getD_eq_getElem _ _ (by simpa using hi), List.getElem_map,
        List.getD_eq_getElem _ _ hi]
    constructor
    · intro hv
      rw [List.mem_map] at hv
      obtain ⟨p, hp, hveq⟩ := hv
      have hbnds := (mem_fullEnum hval p).mp hp
      have h0 : (List.replicate cw.length (0 : Int)).getD i 0 = 0 := by
        rw [List.getD_eq_getElem _ _ (by simpa using hi), List.getElem_replicate]
      have hlo := forall₂_getD _ _ hbnds.1 i (by simpa using hi)
      have hplen : p.length = cw.length := by
        have := hbnds.1.length_eq
        simpa using this.symm
      have hup := forall₂_getD _ _ hbnds.2 i (by omega)
      rw [h0] at hlo
      rw [hnp] at hup
      refine ⟨(p.getD i 0).toNat, by omega, ?_⟩
      rw [← hveq]
      simp only [Function.comp]
      rw [cUpdate_getD_lt cw _ _ i hicr (by simpa using hi)]
    · rintro ⟨k, hk, rfl⟩
      rw [List.mem_map]
      refine ⟨(List.replicate cw.length (0 : Int)).set i ((k : Nat) : Int), ?_, ?_⟩
      · rw [mem_fullEnum hval]
        constructor
        · rw [List.forall₂_iff_get]
          refine ⟨by simp, ?_⟩
          intro j h1 h2
          rw [List.get_eq_getElem, List.get_eq_getElem]
          simp only [Fin.val_mk]
          rw [List.getElem_replicate, List.getElem_set]
          split_ifs with hij
          · exact Int.natCast_nonneg k
          · rw [List.getElem_replicate]
        · rw [List.forall₂_iff_get]
          refine ⟨by simp, ?_⟩
          intro j h1 h2
          rw [List.get_eq_getElem, List.get_eq_getElem]
          simp only [Fin.val_mk]
          rw [List.getElem_set, List.getElem_map]
          split_ifs with hij
          · subst hij
            rw [List.getD_eq_getElem _ _ hi] at hk
            omega
          · rw [List.getElem_replicate]
            have hjcw : j < cw.length := by simpa using h2
            have := hrows (cw[j]) (List.getElem_mem hjcw)
            omega
      · simp only [Function.comp]
        rw [cUpdate_getD_lt cw _ _ i hicr (by simpa using hi)]
        show ((cw.getD i ⟨0, 0, []⟩).data).getD
          ((((List.replicate cw.length (0 : Int)).set i ((k : Nat) : Int)).getD i 0)).toNat 0 = _
        have hset : (((List.replicate cw.length (0 : Int)).set i ((k : Nat) : Int)).getD i 0) =
            ((k : Nat) : Int) := by
          rw [List.getD_eq_getElem _ _ (by simpa using hi), List.getElem_set, if_pos rfl]
        rw [hset, Int.toNat_natCast]
  · intro i hicr hi p hp
    rw [cEmit_eq_map cw junk hne hrows, List.mem_map] at hp
    obtain ⟨q, _, hq⟩ := hp
    rw [← hq, cUpdate_getD_ge _ _ _ _ hicr, hbase i hi]

/-- Witness for C10 at the table of the coordinate-wise example: axis-0
column [0, 10] and axis-1 column [5, 6, 7]; the traversal has 6 points. -/
theorem claim_C10_witness :
    (cEmit [⟨2, 1, [0, 10]⟩, ⟨3, 1, [5, 6, 7]⟩] []).length =
      (([⟨2, 1, [0, 10]⟩, ⟨3, 1, [5, 6, 7]⟩] : List QMat).map (fun m => m.rows)).prod :=
  (claim_C10 [⟨2, 1, [0, 10]⟩, ⟨3, 1, [5, 6, 7]⟩] [] (by simp)
    (by intro m hm; fin_cases hm <;> norm_num)).1

end GsGrid
